import Mathlib

/-!
Verification of the array-backed d-ary heap in `d_heap.py` and the binary-heap
variant in `binaryheap.py`.  The Python classes are shallowly embedded: the
mutable object state becomes the structure `DHeap` (resp. `BinaryHeap`), each
method becomes a function from states to states (fallible methods return an
`Except` outcome next to the post-call state), and Python's `//` floor division
on possibly negative ints becomes `Int.fdiv`.  Elements are `Int`, matching the
integer contents used throughout the repository's tests, ordered by the natural
order that Python's `>`/`<` use on ints.
-/

set_option linter.unusedVariables false
set_option linter.unreachableTactic false
set_option linter.unusedTactic false

/-- Reading slot `i` of a Python list used as an array (`heap_array[i]`); every
call site modelled here only reads in-range, non-negative indices, so the
default value is never observable on the executions we reason about. -/
def idx (l : List Int) (i : Nat) : Int := l.getD i 0

/-- The heap-order relation of the spec: `heapLe mx a b` says value `a` may sit
below value `b` in the tree ("b is at least as extreme as a"): `a ≤ b` for a
max-heap (`mx = true`), `b ≤ a` for a min-heap. -/
def heapLe (mx : Bool) (a b : Int) : Prop := if mx then a ≤ b else b ≤ a

instance (mx : Bool) (a b : Int) : Decidable (heapLe mx a b) := by
  unfold heapLe; split <;> exact inferInstance

/-- Strict comparison of `DHeap.__compare`: `beats mx a b` says `a` must sit
strictly higher than `b` in the tree (`a > b` for a max-heap, `a < b` for min). -/
def beats (mx : Bool) (a b : Int) : Prop := if mx then b < a else a < b

instance (mx : Bool) (a b : Int) : Decidable (beats mx a b) := by
  unfold beats; split <;> exact inferInstance

theorem heapLe_refl (mx : Bool) (a : Int) : heapLe mx a a := by
  cases mx <;> simp [heapLe]

theorem heapLe_trans {mx : Bool} {a b c : Int} (h1 : heapLe mx a b) (h2 : heapLe mx b c) :
    heapLe mx a c := by
  cases mx <;> simp_all [heapLe] <;> omega

theorem heapLe_of_beats {mx : Bool} {a b : Int} (h : beats mx a b) : heapLe mx b a := by
  cases mx <;> simp_all [heapLe, beats] <;> omega

theorem not_beats_iff {mx : Bool} {a b : Int} : ¬ beats mx a b ↔ heapLe mx a b := by
  cases mx <;> simp [heapLe, beats] <;> omega

theorem heapLe_of_heapLe_of_beats {mx : Bool} {a b c : Int}
    (h1 : heapLe mx a b) (h2 : beats mx c b) : heapLe mx a c := by
  cases mx <;> simp_all [heapLe, beats] <;> omega

theorem beats_of_heapLe_of_beats {mx : Bool} {a b c : Int}
    (h1 : heapLe mx a b) (h2 : beats mx c b) : beats mx c a := by
  cases mx <;> simp_all [heapLe, beats] <;> omega

/-- Error kinds of the spec's error-handling design; `emptyContainer` stands for
the failure `peek`/`pop` hit on an empty heap (in the Python source this
surfaces as the `IndexError` of `self.heap_array[0]`). -/
inductive HeapError where
  | emptyContainer
deriving DecidableEq

/-- State of a `DHeap` object (`d_heap.py`): the four attributes set by
`__init__`/`heapify`.  `last_index` is an `Int` because the source keeps it at
`-1` for an empty heap. -/
structure DHeap where
  branching_factor : Nat
  max_heap : Bool
  heap_array : List Int
  last_index : Int
deriving DecidableEq

namespace DHeap

/-- `DHeap.__compare` (d_heap.py 122-132): strict `>` of the two slots for a
max-heap, strict `<` for a min-heap. -/
def compare (h : DHeap) (index_1 index_2 : Nat) : Bool :=
  if h.max_heap then decide (idx h.heap_array index_1 > idx h.heap_array index_2)
  else decide (idx h.heap_array index_1 < idx h.heap_array index_2)

/-- The list produced by `DHeap.__swap` (d_heap.py 114-120): Python's parallel
assignment reads both slots and then writes both. -/
def swapA (l : List Int) (i j : Nat) : List Int := (l.set i (idx l j)).set j (idx l i)

/-- `DHeap.__swap` on the heap state. -/
def swap (h : DHeap) (index_1 index_2 : Nat) : DHeap :=
  { h with heap_array := swapA h.heap_array index_1 index_2 }

/-- Python's `(index - 1) // branching_factor` from `__sift_up` (d_heap.py 140):
floor division on ints, so `-1` for `index = 0` and positive factor. -/
def pyParent (bf : Nat) (index : Nat) : Int := ((index : Int) - 1).fdiv bf

theorem compare_self (h : DHeap) (i : Nat) : h.compare i i = false := by
  unfold compare; split <;> simp

theorem pyParent_eq_natDiv {bf index : Nat} (hbf : 1 ≤ bf) (hi : 1 ≤ index) :
    pyParent bf index = ((index - 1) / bf : Nat) := by
  unfold pyParent
  rw [Int.fdiv_eq_ediv _ (by exact_mod_cast Nat.zero_le bf)]
  have h1 : ((index : Int) - 1) = ((index - 1 : Nat) : Int) := by omega
  rw [h1, Int.ofNat_ediv]

theorem pyParent_neg {bf : Nat} (hbf : 1 ≤ bf) : pyParent bf 0 < 0 := by
  unfold pyParent
  rw [Int.fdiv_eq_ediv _ (by exact_mod_cast Nat.zero_le bf)]
  exact Int.ediv_neg' (by norm_num) (by exact_mod_cast hbf)

theorem pyParent_toNat_lt {bf index : Nat} (hbf : 1 ≤ bf) (hi : 1 ≤ index) :
    (pyParent bf index).toNat < index := by
  rw [pyParent_eq_natDiv hbf hi]
  have h1 : (index - 1) / bf ≤ index - 1 := Nat.div_le_self _ _
  simp only [Int.toNat_natCast]
  omega

/-- `DHeap.__sift_up` (d_heap.py 134-143): while a parent slot exists
(`parent >= 0`) and the element beats it, swap with the parent and continue
from the parent's index. -/
def sift_up (h : DHeap) (index : Nat) : DHeap :=
  if hp : 0 ≤ pyParent h.branching_factor index ∧
      h.compare index (pyParent h.branching_factor index).toNat = true then
    (h.swap index (pyParent h.branching_factor index).toNat).sift_up
      (pyParent h.branching_factor index).toNat
  else h
termination_by index
decreasing_by
  rcases hp with ⟨hp0, hpc⟩
  by_cases hbf : 1 ≤ h.branching_factor
  · rcases Nat.eq_zero_or_pos index with hi | hi
    · exact absurd hp0 (by rw [hi]; exact not_le.mpr (pyParent_neg hbf))
    · exact pyParent_toNat_lt hbf hi
  · have hbf0 : h.branching_factor = 0 := by omega
    have hz : pyParent h.branching_factor index = 0 := by
      unfold pyParent; rw [hbf0]; exact Int.fdiv_zero _
    rcases Nat.eq_zero_or_pos index with hi | hi
    · exfalso
      rw [hz] at hpc
      simp only [Int.toNat_zero] at hpc
      rw [hi, compare_self] at hpc
      exact Bool.false_ne_true hpc
    · rw [hz]; simpa using hi

/-- One iteration of the child scan in `DHeap.__sift_down` (d_heap.py
154-164): `k` counts from 0, so the scanned child is `index*bf + (k+1)`,
matching the source's `i = 1 .. branching_factor`; the child replaces the best
seen so far only when it is in range and strictly beats it. -/
def sift_down_step (h : DHeap) (index new_parent k : Nat) : Nat :=
  let child := index * h.branching_factor + (k + 1)
  if (child : Int) ≤ h.last_index ∧ h.compare child new_parent = true then child
  else new_parent

/-- The whole scan of `DHeap.__sift_down` (d_heap.py 151-164): fold the scan
step over `i = 1 .. branching_factor`, starting from `index` itself. -/
def sift_down_pick (h : DHeap) (index : Nat) : Nat :=
  (List.range h.branching_factor).foldl (h.sift_down_step index) index

theorem sift_down_pick_cases (h : DHeap) (index : Nat) :
    h.sift_down_pick index = index ∨
      (index < h.sift_down_pick index ∧ (h.sift_down_pick index : Int) ≤ h.last_index) := by
  rcases Nat.eq_zero_or_pos h.branching_factor with hbf | hbf
  · left; unfold sift_down_pick; rw [hbf]; rfl
  · unfold sift_down_pick
    have main : ∀ (ks : List Nat) (acc : Nat),
        (acc = index ∨ (index < acc ∧ (acc : Int) ≤ h.last_index)) →
        (ks.foldl (h.sift_down_step index) acc = index ∨
          (index < ks.foldl (h.sift_down_step index) acc ∧
            ((ks.foldl (h.sift_down_step index) acc : Nat) : Int) ≤ h.last_index)) := by
      intro ks
      induction ks with
      | nil => intro acc hacc; exact hacc
      | cons k ks ih =>
        intro acc hacc
        apply ih
        unfold sift_down_step
        by_cases hc : ((index * h.branching_factor + (k + 1) : Nat) : Int) ≤ h.last_index ∧
            h.compare (index * h.branching_factor + (k + 1)) acc = true
        · simp only [List.foldl_cons, if_pos hc]
          right
          constructor
          · have : index * 1 ≤ index * h.branching_factor := Nat.mul_le_mul_left _ hbf
            omega
          · exact hc.1
        · simp only [List.foldl_cons, if_neg hc]
          exact hacc
    exact main (List.range h.branching_factor) index (Or.inl rfl)

/-- `DHeap.__sift_down` (d_heap.py 145-169): find the best among the node and
its in-range children; if it is a child, swap and continue from there. -/
def sift_down (h : DHeap) (index : Nat) : DHeap :=
  let new_parent := h.sift_down_pick index
  if new_parent ≠ index then (h.swap index new_parent).sift_down new_parent else h
termination_by (h.last_index + 1 - index).toNat
decreasing_by
  rcases sift_down_pick_cases h index with hcase | hcase
  · exact absurd hcase (by assumption)
  · show ((h.swap index (h.sift_down_pick index)).last_index + 1 - h.sift_down_pick index).toNat
      < (h.last_index + 1 - index).toNat
    have hsw : (h.swap index (h.sift_down_pick index)).last_index = h.last_index := rfl
    rw [hsw]
    omega

/-- `DHeap.peek` (d_heap.py 73-79): evaluates `self.heap_array[0]`, which raises
(IndexError, the spec's EmptyContainer) exactly when the list is empty, and
otherwise returns the root without modifying anything. -/
def peek (h : DHeap) : Except HeapError Int :=
  if h.heap_array.length = 0 then Except.error HeapError.emptyContainer
  else Except.ok (idx h.heap_array 0)

/-- The state in the middle of `DHeap.pop` (d_heap.py 92-94), after the swap of
root and last element, the physical removal of slot `last_index` (`list.pop`,
i.e. `eraseIdx`) and the decrement of `last_index`, before the sift-down. -/
def pop_removed (h : DHeap) : DHeap :=
  let h1 := h.swap 0 h.last_index.toNat
  { h1 with
    heap_array := h1.heap_array.eraseIdx h1.last_index.toNat,
    last_index := h1.last_index - 1 }

/-- `DHeap.pop` (d_heap.py 81-99): first `peek` (raising on an empty heap
before any mutation, so the state component stays `h`), then remove the root
as in `pop_removed` and sift the new root down.  The result pairs the returned
value (or error) with the post-call state. -/
def pop (h : DHeap) : Except HeapError Int × DHeap :=
  match h.peek with
  | Except.error e => (Except.error e, h)
  | Except.ok ret_val => (Except.ok ret_val, h.pop_removed.sift_down 0)

/-- The state in the middle of `DHeap.push` (d_heap.py 107-109), after the
increment of `last_index` and the append, before the sift-up. -/
def push_pre (h : DHeap) (val : Int) : DHeap :=
  { h with
    last_index := h.last_index + 1,
    heap_array := h.heap_array ++ [val] }

/-- `DHeap.push` (d_heap.py 101-112): increment `last_index`, append the value,
and sift it up from the new last slot. -/
def push (h : DHeap) (val : Int) : DHeap :=
  (h.push_pre val).sift_up (h.push_pre val).last_index.toNat

/-- `DHeap.__init__` (d_heap.py 55-71): fresh empty storage (`heap_array = []`,
`last_index = -1`), then each initial value is pushed in order.  The
constructor performs no validation of `branching_factor`. -/
def init (initial_contents : List Int) (max_heap : Bool) (branching_factor : Nat) : DHeap :=
  initial_contents.foldl (fun h val => h.push val)
    { branching_factor := branching_factor, max_heap := max_heap,
      heap_array := [], last_index := -1 }

/-- The constructor together with the caller's view of the argument list after
the call.  `__init__` only iterates over `initial_contents` (reads) and appends
to `self.heap_array`, which starts as a fresh `[]` and never aliases the
argument, so the caller's binding still holds the unchanged input list. -/
def init_caller (initial_contents : List Int) (max_heap : Bool) (branching_factor : Nat) :
    List Int × DHeap :=
  (initial_contents, init initial_contents max_heap branching_factor)

/-- The `while start >= 0` loop of `DHeap.heapify` (d_heap.py 30-32): sift down
each parent index from `start` down to `0`. -/
def heapify_loop (h : DHeap) (start : Int) : DHeap :=
  if 0 ≤ start then heapify_loop (h.sift_down start.toNat) (start - 1) else h
termination_by (start + 1).toNat
decreasing_by omega

/-- The heap object at the start of `DHeap.heapify` (d_heap.py 22-24): a fresh
empty heap (`DHeap(max_heap=..., branching_factor=...)`) whose storage is then
pointed at the given list (no copy) with `last_index = len - 1`. -/
def heapify_start (unordered_list : List Int) (max_heap : Bool) (branching_factor : Nat) :
    DHeap :=
  { init [] max_heap branching_factor with
    heap_array := unordered_list,
    last_index := (unordered_list.length : Int) - 1 }

/-- `DHeap.heapify` (d_heap.py 11-34): build the start state, then run the
sift-down loop from the parent of the last node,
`(last_index - 1) // branching_factor`. -/
def heapify (unordered_list : List Int) (max_heap : Bool) (branching_factor : Nat) : DHeap :=
  heapify_loop (heapify_start unordered_list max_heap branching_factor)
    (((heapify_start unordered_list max_heap branching_factor).last_index - 1).fdiv
      (heapify_start unordered_list max_heap branching_factor).branching_factor)

theorem sift_down_fields (h : DHeap) (index : Nat) :
    (h.sift_down index).last_index = h.last_index ∧
    (h.sift_down index).branching_factor = h.branching_factor ∧
    (h.sift_down index).max_heap = h.max_heap ∧
    (h.sift_down index).heap_array.length = h.heap_array.length := by
  induction h, index using sift_down.induct with
  | case1 h index np hne ih =>
    rw [sift_down]
    simp only [if_pos hne]
    rcases ih with ⟨i1, i2, i3, i4⟩
    refine ⟨?_, ?_, ?_, ?_⟩ <;>
      simp_all [swap, swapA]
  | case2 h index np hne =>
    rw [sift_down]
    simp only [if_neg hne]
    simp

/-- One iteration of the `while heap.last_index >= 0` loop of `DHeap.heapsort`
(d_heap.py 48-50) before its sift-down: swap root with the last live slot and
shrink the logical size (the storage itself is kept). -/
def heapsort_step (h : DHeap) : DHeap :=
  let h1 := h.swap 0 h.last_index.toNat
  { h1 with last_index := h1.last_index - 1 }

/-- The `while heap.last_index >= 0` loop of `DHeap.heapsort` (d_heap.py
47-53): swap root with the last live slot, shrink the logical size, and sift
the new root down within the shrunken range. -/
def heapsort_loop (h : DHeap) : DHeap :=
  if 0 ≤ h.last_index then heapsort_loop ((heapsort_step h).sift_down 0)
  else h
termination_by (h.last_index + 1).toNat
decreasing_by
  have hf := (sift_down_fields (heapsort_step h) 0).1
  rw [hf]
  show ((h.last_index - 1) + 1).toNat < (h.last_index + 1).toNat
  omega

/-- `DHeap.heapsort` (d_heap.py 36-53): heapify the list in place with
`max_heap = ascending` (the branching factor is left at its default 2), run the
pop-to-the-back loop, and the caller's list afterwards is the heap's storage. -/
def heapsort (unordered_list : List Int) (ascending : Bool) : List Int :=
  (heapsort_loop (heapify unordered_list ascending 2)).heap_array

/-- `DHeap.validate_heap` (d_heap.py 171-194).  The `while i < bf` loop body
returns as soon as `child = first_child + i` is in range (`child <=
last_index`), either `False` on an out-of-order child or the recursive check of
that child; only out-of-range children fall through to the next `i`.  The
first `i` whose child is in range is therefore the one whose body runs, which
is what `find?` selects; if no child is in range the loop ends and returns
`True`. -/
def validate_heap (h : DHeap) (parent : Nat) : Bool :=
  let first_child := parent * h.branching_factor + 1
  match hk : (List.range h.branching_factor).find?
      (fun i => decide (((first_child + i : Nat) : Int) ≤ h.last_index)) with
  | some i =>
    if h.compare (first_child + i) parent then false else h.validate_heap (first_child + i)
  | none => true
termination_by (h.last_index + 1 - parent).toNat
decreasing_by
  have hin : ((parent * h.branching_factor + 1 + i : Nat) : Int) ≤ h.last_index := by
    have := List.find?_some hk
    simpa using this
  have hmem : i ∈ List.range h.branching_factor := List.mem_of_find?_eq_some hk
  have hbf : i < h.branching_factor := List.mem_range.mp hmem
  have hgt : parent < parent * h.branching_factor + 1 + i := by
    have : parent * 1 ≤ parent * h.branching_factor := Nat.mul_le_mul_left _ (by omega)
    omega
  omega

/-- `DHeap.__len__` (d_heap.py 202-203). -/
def len (h : DHeap) : Int := h.last_index + 1

/-- The logical element count as a natural number (`len` of a well-formed heap
is never negative). -/
def size (h : DHeap) : Nat := (h.last_index + 1).toNat

end DHeap

theorem idx_eq_getElem {l : List Int} {i : Nat} (hi : i < l.length) : idx l i = l[i] := by
  unfold idx
  rw [List.getD_eq_getElem?_getD, List.getElem?_eq_getElem hi]
  rfl

theorem idx_set_self {l : List Int} {i : Nat} (hi : i < l.length) (v : Int) :
    idx (l.set i v) i = v := by
  unfold idx
  rw [List.getD_eq_getElem?_getD, List.getElem?_set_self hi]
  rfl

theorem idx_set_ne {l : List Int} {i m : Nat} (hne : i ≠ m) (v : Int) :
    idx (l.set i v) m = idx l m := by
  unfold idx
  rw [List.getD_eq_getElem?_getD, List.getElem?_set_ne hne, ← List.getD_eq_getElem?_getD]

namespace DHeap

theorem length_swapA (l : List Int) (i j : Nat) : (swapA l i j).length = l.length := by
  simp [swapA]

theorem idx_swapA_fst {l : List Int} {i j : Nat} (hj : j < l.length) :
    idx (swapA l i j) j = idx l i := by
  unfold swapA
  exact idx_set_self (by simpa using hj) _

theorem idx_swapA_snd {l : List Int} {i j : Nat} (hi : i < l.length) (hne : i ≠ j) :
    idx (swapA l i j) i = idx l j := by
  unfold swapA
  rw [idx_set_ne (Ne.symm hne), idx_set_self hi]

theorem idx_swapA_other {l : List Int} {i j m : Nat} (h1 : m ≠ i) (h2 : m ≠ j) :
    idx (swapA l i j) m = idx l m := by
  unfold swapA
  rw [idx_set_ne (Ne.symm h2), idx_set_ne (Ne.symm h1)]

theorem swapA_perm {l : List Int} {i j : Nat} (hi : i < l.length) (hj : j < l.length) :
    List.Perm (swapA l i j) l := by
  rw [List.perm_iff_count]
  intro x
  unfold swapA
  have hj' : j < (l.set i (idx l j)).length := by simpa using hj
  rw [List.count_set _ _ _ _ hj', List.count_set _ _ _ _ hi]
  have hset : (l.set i (idx l j))[j] = idx l j := by
    rw [List.getElem_set]
    split
    · rfl
    · exact (idx_eq_getElem hj).symm
  rw [hset, idx_eq_getElem hj, idx_eq_getElem hi]
  have hmem : l[i] ∈ l := List.getElem_mem hi
  simp only [beq_iff_eq]
  by_cases hpi : l[i] = x
  · have h1 : 0 < l.count x := List.count_pos_iff.mpr (hpi ▸ hmem)
    by_cases hpj : l[j] = x <;> simp [hpi, hpj] <;> omega
  · by_cases hpj : l[j] = x <;> simp [hpi, hpj] <;> omega

theorem compare_iff_beats (h : DHeap) (i j : Nat) :
    h.compare i j = true ↔ beats h.max_heap (idx h.heap_array i) (idx h.heap_array j) := by
  unfold compare beats
  cases h.max_heap <;> simp

theorem compare_false_iff (h : DHeap) (i j : Nat) :
    h.compare i j = false ↔ heapLe h.max_heap (idx h.heap_array i) (idx h.heap_array j) := by
  rw [← Bool.not_eq_true, compare_iff_beats, not_beats_iff]

/-- The heap-order property for every parent slot `p ≥ s`: each in-range child
`p*bf + (k+1)` (with `k < bf`, child index at most `last`) carries a value that
may sit below the parent's.  `HeapFrom mx bf l last 0` is exactly the heap
invariant of spec section 3 restricted to the live range `[0, last]`. -/
def HeapFrom (mx : Bool) (bf : Nat) (l : List Int) (last : Int) (s : Nat) : Prop :=
  ∀ p k : Nat, s ≤ p → k < bf → ((p * bf + (k + 1) : Nat) : Int) ≤ last →
    heapLe mx (idx l (p * bf + (k + 1))) (idx l p)

/-- Membership of slot `m` in the subtree rooted at slot `root` of the implicit
`bf`-ary tree: reached from the root through the child map `p ↦ p*bf + (k+1)`. -/
inductive Desc (bf : Nat) (root : Nat) : Nat → Prop where
  | refl : Desc bf root root
  | child {p : Nat} (k : Nat) : Desc bf root p → k < bf → Desc bf root (p * bf + (k + 1))

theorem Desc.root_le {bf root m : Nat} (hd : Desc bf root m) (hbf : 1 ≤ bf) : root ≤ m := by
  induction hd with
  | refl => exact Nat.le_refl _
  | child k hp hk ih =>
    rename_i p
    have hpb : p ≤ p * bf := Nat.le_mul_of_pos_right p hbf
    omega

theorem Desc.trans {bf a b c : Nat} (h1 : Desc bf a b) (h2 : Desc bf b c) : Desc bf a c := by
  induction h2 with
  | refl => exact h1
  | child k hd hk ih => exact Desc.child k ih hk

theorem Desc.inv {bf root m : Nat} (hd : Desc bf root m) :
    m = root ∨ ∃ q k, k < bf ∧ m = q * bf + (k + 1) ∧ Desc bf root q := by
  cases hd with
  | refl => exact Or.inl rfl
  | child k hd hk => exact Or.inr ⟨_, k, hk, rfl, hd⟩

theorem child_slot_inj {bf p1 k1 p2 k2 : Nat} (h1 : k1 < bf) (h2 : k2 < bf)
    (heq : p1 * bf + (k1 + 1) = p2 * bf + (k2 + 1)) : p1 = p2 := by
  have key : ∀ a b ka kb : Nat, ka < bf → kb < bf → a < b →
      a * bf + (ka + 1) ≠ b * bf + (kb + 1) := by
    intro a b ka kb hka hkb hab
    have h3 : (a + 1) * bf ≤ b * bf := Nat.mul_le_mul_right _ (by omega)
    rw [Nat.succ_mul] at h3
    omega
  rcases Nat.lt_trichotomy p1 p2 with hlt | hh | hgt
  · exact absurd heq (key _ _ _ _ h1 h2 hlt)
  · exact hh
  · exact absurd heq.symm (key _ _ _ _ h2 h1 hgt)

theorem sift_down_pick_spec (h : DHeap) (index : Nat) (hbf : 1 ≤ h.branching_factor) :
    (h.sift_down_pick index = index ∨
      ∃ k, k < h.branching_factor ∧
        h.sift_down_pick index = index * h.branching_factor + (k + 1) ∧
        ((h.sift_down_pick index : Nat) : Int) ≤ h.last_index ∧
        beats h.max_heap (idx h.heap_array (h.sift_down_pick index))
          (idx h.heap_array index)) ∧
    heapLe h.max_heap (idx h.heap_array index) (idx h.heap_array (h.sift_down_pick index)) ∧
    (∀ k, k < h.branching_factor →
      ((index * h.branching_factor + (k + 1) : Nat) : Int) ≤ h.last_index →
      heapLe h.max_heap (idx h.heap_array (index * h.branching_factor + (k + 1)))
        (idx h.heap_array (h.sift_down_pick index))) ∧
    (∀ k, k < h.branching_factor →
      index * h.branching_factor + (k + 1) < h.sift_down_pick index →
      ((index * h.branching_factor + (k + 1) : Nat) : Int) ≤ h.last_index →
      beats h.max_heap (idx h.heap_array (h.sift_down_pick index))
        (idx h.heap_array (index * h.branching_factor + (k + 1)))) := by
  have hidx : index ≤ index * h.branching_factor :=
    Nat.le_mul_of_pos_right index hbf
  have main : ∀ n, n ≤ h.branching_factor →
      (((List.range n).foldl (h.sift_down_step index) index = index ∨
        ∃ k, k < n ∧
          (List.range n).foldl (h.sift_down_step index) index =
            index * h.branching_factor + (k + 1) ∧
          (((List.range n).foldl (h.sift_down_step index) index : Nat) : Int) ≤ h.last_index ∧
          beats h.max_heap
            (idx h.heap_array ((List.range n).foldl (h.sift_down_step index) index))
            (idx h.heap_array index)) ∧
      heapLe h.max_heap (idx h.heap_array index)
        (idx h.heap_array ((List.range n).foldl (h.sift_down_step index) index)) ∧
      (∀ k, k < n →
        ((index * h.branching_factor + (k + 1) : Nat) : Int) ≤ h.last_index →
        heapLe h.max_heap (idx h.heap_array (index * h.branching_factor + (k + 1)))
          (idx h.heap_array ((List.range n).foldl (h.sift_down_step index) index))) ∧
      (∀ k, k < n →
        index * h.branching_factor + (k + 1) <
          (List.range n).foldl (h.sift_down_step index) index →
        ((index * h.branching_factor + (k + 1) : Nat) : Int) ≤ h.last_index →
        beats h.max_heap
          (idx h.heap_array ((List.range n).foldl (h.sift_down_step index) index))
          (idx h.heap_array (index * h.branching_factor + (k + 1))))) := by
    intro n
    induction n with
    | zero =>
      intro hn
      refine ⟨Or.inl rfl, heapLe_refl _ _, ?_, ?_⟩ <;> intro k hk <;> omega
    | succ n ih =>
      intro hn
      obtain ⟨ih1, ih2, ih3, ih4⟩ := ih (by omega)
      rw [List.range_succ, List.foldl_append, List.foldl_cons, List.foldl_nil]
      set F := (List.range n).foldl (h.sift_down_step index) index with hF
      unfold sift_down_step
      by_cases hc : ((index * h.branching_factor + (n + 1) : Nat) : Int) ≤ h.last_index ∧
          h.compare (index * h.branching_factor + (n + 1)) F = true
      · rw [if_pos hc]
        have hbeats : beats h.max_heap
            (idx h.heap_array (index * h.branching_factor + (n + 1)))
            (idx h.heap_array F) := (compare_iff_beats h _ _).mp hc.2
        refine ⟨?_, ?_, ?_, ?_⟩
        · right
          exact ⟨n, by omega, rfl, hc.1, beats_of_heapLe_of_beats ih2 hbeats⟩
        · exact heapLe_of_heapLe_of_beats ih2 hbeats
        · intro k hk hkin
          rcases Nat.lt_or_ge k n with hkn | hkn
          · exact heapLe_of_heapLe_of_beats (ih3 k hkn hkin) hbeats
          · have hkeq : k = n := by omega
            subst hkeq
            exact heapLe_refl _ _
        · intro k hk hklt hkin
          rcases Nat.lt_or_ge k n with hkn | hkn
          · exact beats_of_heapLe_of_beats (ih3 k hkn hkin) hbeats
          · omega
      · rw [if_neg hc]
        have hle : ((index * h.branching_factor + (n + 1) : Nat) : Int) ≤ h.last_index →
            heapLe h.max_heap (idx h.heap_array (index * h.branching_factor + (n + 1)))
              (idx h.heap_array F) := by
          intro hin
          have hcf : h.compare (index * h.branching_factor + (n + 1)) F = false := by
            rcases Bool.eq_false_or_eq_true (h.compare (index * h.branching_factor + (n + 1)) F)
              with hb | hb
            · exact absurd ⟨hin, hb⟩ hc
            · exact hb
          exact (compare_false_iff h _ _).mp hcf
        refine ⟨?_, ih2, ?_, ?_⟩
        · rcases ih1 with h1 | ⟨k, hk, hke, hkl, hkb⟩
          · exact Or.inl h1
          · exact Or.inr ⟨k, by omega, hke, hkl, hkb⟩
        · intro k hk hkin
          rcases Nat.lt_or_ge k n with hkn | hkn
          · exact ih3 k hkn hkin
          · have hkeq : k = n := by omega
            subst hkeq
            exact hle hkin
        · intro k hk hklt hkin
          rcases Nat.lt_or_ge k n with hkn | hkn
          · exact ih4 k hkn hklt hkin
          · exfalso
            have hkeq : k = n := by omega
            subst hkeq
            rcases ih1 with h1 | ⟨k0, hk0, hke, hkl, hkb⟩
            · omega
            · omega
  exact main h.branching_factor (Nat.le_refl _)

end DHeap


namespace DHeap

theorem swap_heap_array (h : DHeap) (i j : Nat) :
    (h.swap i j).heap_array = swapA h.heap_array i j := rfl

theorem swap_last_index (h : DHeap) (i j : Nat) : (h.swap i j).last_index = h.last_index := rfl

theorem swap_max_heap (h : DHeap) (i j : Nat) : (h.swap i j).max_heap = h.max_heap := rfl

theorem swap_branching_factor (h : DHeap) (i j : Nat) :
    (h.swap i j).branching_factor = h.branching_factor := rfl

theorem sift_down_spec :
    ∀ (h : DHeap) (j : Nat),
      1 ≤ h.branching_factor →
      h.last_index < (h.heap_array.length : Int) →
      HeapFrom h.max_heap h.branching_factor h.heap_array h.last_index (j + 1) →
      (HeapFrom h.max_heap h.branching_factor (h.sift_down j).heap_array h.last_index j ∧
        List.Perm (h.sift_down j).heap_array h.heap_array ∧
        (∀ m : Nat, idx (h.sift_down j).heap_array m ≠ idx h.heap_array m →
          Desc h.branching_factor j m ∧ (m : Int) ≤ h.last_index) ∧
        (∀ m : Nat, ∃ m0 : Nat, ((m0 : Int) ≤ h.last_index ∨ m0 = m) ∧
          idx (h.sift_down j).heap_array m = idx h.heap_array m0) ∧
        (idx (h.sift_down j).heap_array j = idx h.heap_array j ∨
          ∃ k, k < h.branching_factor ∧
            ((j * h.branching_factor + (k + 1) : Nat) : Int) ≤ h.last_index ∧
            idx (h.sift_down j).heap_array j =
              idx h.heap_array (j * h.branching_factor + (k + 1)))) := by
  intro h j
  induction h, j using sift_down.induct with
  | case2 h index np hne =>
    intro hbf hlen hfrom
    have hnp : np = h.sift_down_pick index := rfl
    have hpick : h.sift_down_pick index = index := by
      rw [← hnp]; exact not_not.mp (by simpa using hne)
    have heq : h.sift_down index = h := by
      rw [sift_down]
      simp only [if_neg hne]
    rw [heq]
    obtain ⟨hp1, hp2, hp3, hp4⟩ := sift_down_pick_spec h index hbf
    rw [hpick] at hp3
    refine ⟨?_, List.Perm.refl _, ?_, ?_, Or.inl rfl⟩
    · intro p k hp hk hc
      rcases Nat.eq_or_lt_of_le hp with hpe | hpl
      · rw [← hpe] at hc ⊢
        exact hp3 k hk hc
      · exact hfrom p k hpl hk hc
    · intro m hm
      exact absurd rfl hm
    · intro m
      exact ⟨m, Or.inr rfl, rfl⟩
  | case1 h index np hne ih =>
    intro hbf hlen hfrom
    have hnp : np = h.sift_down_pick index := rfl
    have heq : h.sift_down index = (h.swap index np).sift_down np := by
      rw [sift_down]
      simp only [if_pos hne]
    rw [heq]
    obtain ⟨hp1, hp2, hp3, hp4⟩ := sift_down_pick_spec h index hbf
    rw [← hnp] at hp1 hp2 hp3 hp4
    rcases hp1 with heq0 | ⟨k0, hk0, hke, hkl, hkb⟩
    · exact absurd heq0 hne
    have hij : index < np := by
      have h1 : index ≤ index * h.branching_factor := Nat.le_mul_of_pos_right index hbf
      omega
    have hnp_len : np < h.heap_array.length := by omega
    have hidx_len : index < h.heap_array.length := by omega
    have e_np : idx (swapA h.heap_array index np) np = idx h.heap_array index :=
      idx_swapA_fst hnp_len
    have e_idx : idx (swapA h.heap_array index np) index = idx h.heap_array np :=
      idx_swapA_snd hidx_len (by omega)
    have e_oth : ∀ m : Nat, m ≠ index → m ≠ np →
        idx (swapA h.heap_array index np) m = idx h.heap_array m :=
      fun m h1 h2 => idx_swapA_other h1 h2
    have hbf1 : 1 ≤ (h.swap index np).branching_factor := hbf
    have hlen1 : (h.swap index np).last_index < ((h.swap index np).heap_array.length : Int) := by
      rw [swap_last_index, swap_heap_array, length_swapA]
      exact hlen
    have hfrom1 : HeapFrom h.max_heap h.branching_factor
        (swapA h.heap_array index np) h.last_index (np + 1) := by
      intro p k hp hk hc
      have hpb : p ≤ p * h.branching_factor := Nat.le_mul_of_pos_right p hbf
      rw [e_oth _ (by omega) (by omega), e_oth _ (by omega) (by omega)]
      exact hfrom p k (by omega) hk hc
    obtain ⟨C1x, C2x, C3x, C4x, C5x⟩ := ih hbf1 hlen1 hfrom1
    have C1 : HeapFrom h.max_heap h.branching_factor
        ((h.swap index np).sift_down np).heap_array h.last_index np := C1x
    have C2 : List.Perm ((h.swap index np).sift_down np).heap_array
        (swapA h.heap_array index np) := C2x
    have C3 : ∀ m : Nat,
        idx ((h.swap index np).sift_down np).heap_array m ≠
          idx (swapA h.heap_array index np) m →
        Desc h.branching_factor np m ∧ (m : Int) ≤ h.last_index := C3x
    have C4 : ∀ m : Nat, ∃ m0 : Nat, ((m0 : Int) ≤ h.last_index ∨ m0 = m) ∧
        idx ((h.swap index np).sift_down np).heap_array m =
          idx (swapA h.heap_array index np) m0 := C4x
    have C5 : idx ((h.swap index np).sift_down np).heap_array np =
        idx (swapA h.heap_array index np) np ∨
        ∃ k, k < h.branching_factor ∧
          ((np * h.branching_factor + (k + 1) : Nat) : Int) ≤ h.last_index ∧
          idx ((h.swap index np).sift_down np).heap_array np =
            idx (swapA h.heap_array index np) (np * h.branching_factor + (k + 1)) := C5x
    have hU : ∀ m : Nat, ¬ Desc h.branching_factor np m →
        idx ((h.swap index np).sift_down np).heap_array m =
          idx (swapA h.heap_array index np) m := by
      intro m hm
      by_contra hne2
      exact hm (C3 m hne2).1
    have hD_not_lt : ∀ m : Nat, m < np → ¬ Desc h.branching_factor np m := by
      intro m hm hd
      exact absurd (hd.root_le hbf) (by omega)
    have hl2_idx : idx ((h.swap index np).sift_down np).heap_array index =
        idx h.heap_array np := by
      rw [hU index (hD_not_lt index hij), e_idx]
    have hdn : Desc h.branching_factor index np := by
      rw [hke]; exact Desc.child k0 Desc.refl hk0
    have hval_np : heapLe h.max_heap (idx ((h.swap index np).sift_down np).heap_array np)
        (idx h.heap_array np) := by
      rcases C5 with hc5 | ⟨k1, hk1, hkin1, hc5⟩
      · rw [hc5, e_np]
        exact heapLe_of_beats hkb
      · have hgt : np < np * h.branching_factor + (k1 + 1) := by
          have : np ≤ np * h.branching_factor := Nat.le_mul_of_pos_right np hbf
          omega
        rw [hc5, e_oth _ (by omega) (by omega)]
        exact hfrom np k1 (by omega) hk1 hkin1
    refine ⟨?_, ?_, ?_, ?_, ?_⟩
    · intro p k hp hk hc
      by_cases hpidx : p = index
      · subst hpidx
        rw [hl2_idx]
        by_cases hcnp : p * h.branching_factor + (k + 1) = np
        · rw [hcnp]
          exact hval_np
        · have hcd : ¬ Desc h.branching_factor np (p * h.branching_factor + (k + 1)) := by
            intro hd
            rcases hd.inv with hdc | ⟨q, kq, hkq, hceq, hdq⟩
            · exact hcnp hdc
            · have hq : q = p := child_slot_inj hkq hk hceq.symm
              subst hq
              exact absurd (hdq.root_le hbf) (by omega)
          have hcidx : p * h.branching_factor + (k + 1) ≠ p := by
            have : p ≤ p * h.branching_factor := Nat.le_mul_of_pos_right p hbf
            omega
          rw [hU _ hcd, e_oth _ hcidx hcnp]
          exact hp3 k hk hc
      · by_cases hpnp : np ≤ p
        · exact C1 p k hpnp hk hc
        · have hpgt : index < p := by omega
          have hpb : p ≤ p * h.branching_factor := Nat.le_mul_of_pos_right p hbf
          have hcnp : p * h.branching_factor + (k + 1) ≠ np := by
            intro hceq
            exact hpidx (child_slot_inj hk hk0 (hceq.trans hke))
          have hcd : ¬ Desc h.branching_factor np (p * h.branching_factor + (k + 1)) := by
            intro hd
            rcases hd.inv with hdc | ⟨q, kq, hkq, hceq, hdq⟩
            · exact hcnp hdc
            · have hq : q = p := child_slot_inj hkq hk hceq.symm
              subst hq
              exact absurd (hdq.root_le hbf) (by omega)
          rw [hU _ hcd, e_oth _ (by omega) hcnp,
            hU p (hD_not_lt p (by omega)), e_oth p (by omega) (by omega)]
          exact hfrom p k (by omega) hk hc
    · exact C2.trans (swapA_perm hidx_len hnp_len)
    · intro m hm
      by_cases h2 : idx ((h.swap index np).sift_down np).heap_array m =
          idx (swapA h.heap_array index np) m
      · have h3 : idx (swapA h.heap_array index np) m ≠ idx h.heap_array m := by
          rw [← h2]; exact hm
        by_cases hmi : m = index
        · subst hmi
          exact ⟨Desc.refl, by omega⟩
        · by_cases hmn : m = np
          · subst hmn
            exact ⟨hdn, hkl⟩
          · exact absurd (e_oth m hmi hmn) h3
      · obtain ⟨hd1, hd2⟩ := C3 m h2
        exact ⟨hdn.trans hd1, hd2⟩
    · intro m
      obtain ⟨m0, hm0, he⟩ := C4 m
      by_cases hm0i : m0 = index
      · refine ⟨np, Or.inl hkl, ?_⟩
        rw [he, hm0i, e_idx]
      · by_cases hm0n : m0 = np
        · refine ⟨index, Or.inl (by omega), ?_⟩
          rw [he, hm0n, e_np]
        · refine ⟨m0, hm0, ?_⟩
          rw [he, e_oth m0 hm0i hm0n]
    · right
      refine ⟨k0, hk0, ?_, ?_⟩
      · rw [← hke]
        exact hkl
      · rw [hl2_idx, hke]

end DHeap


namespace DHeap

theorem pyParent_toNat_eq {bf j : Nat} (hbf : 1 ≤ bf) (hj : 1 ≤ j) :
    (pyParent bf j).toNat = (j - 1) / bf := by
  rw [pyParent_eq_natDiv hbf hj, Int.toNat_natCast]

theorem child_parent_div {bf p k : Nat} (hbf : 1 ≤ bf) (hk : k < bf) :
    (p * bf + (k + 1) - 1) / bf = p := by
  have h1 : p * bf + (k + 1) - 1 = bf * p + k := by
    rw [Nat.mul_comm]; omega
  rw [h1, Nat.mul_add_div (by omega), Nat.div_eq_of_lt hk]
  omega

theorem parent_decomp {bf j : Nat} (hbf : 1 ≤ bf) (hj : 1 ≤ j) :
    ((j - 1) / bf) * bf + ((j - 1) % bf + 1) = j ∧ (j - 1) % bf < bf := by
  constructor
  · have h1 := Nat.div_add_mod (j - 1) bf
    rw [Nat.mul_comm] at h1
    omega
  · exact Nat.mod_lt _ (by omega)

theorem parentN_lt {bf j : Nat} (hbf : 1 ≤ bf) (hj : 1 ≤ j) : (j - 1) / bf < j := by
  have h1 : (j - 1) / bf ≤ j - 1 := Nat.div_le_self _ _
  omega

theorem sift_up_fields (h : DHeap) (index : Nat) :
    (h.sift_up index).last_index = h.last_index ∧
    (h.sift_up index).branching_factor = h.branching_factor ∧
    (h.sift_up index).max_heap = h.max_heap ∧
    (h.sift_up index).heap_array.length = h.heap_array.length := by
  induction h, index using sift_up.induct with
  | case1 h index hp ih =>
    rw [sift_up]
    simp only [dif_pos hp]
    rcases ih with ⟨i1, i2, i3, i4⟩
    refine ⟨?_, ?_, ?_, ?_⟩ <;> simp_all [swap, swapA]
  | case2 h index hp =>
    rw [sift_up]
    simp only [dif_neg hp]
    simp

theorem sift_up_spec :
    ∀ (h : DHeap) (j : Nat),
      1 ≤ h.branching_factor →
      h.last_index < (h.heap_array.length : Int) →
      (j : Int) ≤ h.last_index →
      (∀ p k : Nat, k < h.branching_factor →
        ((p * h.branching_factor + (k + 1) : Nat) : Int) ≤ h.last_index →
        p * h.branching_factor + (k + 1) ≠ j →
        heapLe h.max_heap (idx h.heap_array (p * h.branching_factor + (k + 1)))
          (idx h.heap_array p)) →
      (∀ k : Nat, k < h.branching_factor → 1 ≤ j →
        ((j * h.branching_factor + (k + 1) : Nat) : Int) ≤ h.last_index →
        heapLe h.max_heap (idx h.heap_array (j * h.branching_factor + (k + 1)))
          (idx h.heap_array ((j - 1) / h.branching_factor))) →
      (HeapFrom h.max_heap h.branching_factor (h.sift_up j).heap_array h.last_index 0 ∧
        List.Perm (h.sift_up j).heap_array h.heap_array) := by
  intro h j
  induction h, j using sift_up.induct with
  | case2 h j hp =>
    intro hbf hlen hj hex hgrand
    have heq : h.sift_up j = h := by
      rw [sift_up]
      simp only [dif_neg hp]
    rw [heq]
    refine ⟨?_, List.Perm.refl _⟩
    rcases Nat.eq_zero_or_pos j with hj0 | hj1
    · subst hj0
      intro p k hps hk hc
      have hcne : p * h.branching_factor + (k + 1) ≠ 0 := by omega
      exact hex p k hk hc hcne
    · have hpar0 : 0 ≤ pyParent h.branching_factor j := by
        rw [pyParent_eq_natDiv hbf hj1]
        exact Int.ofNat_nonneg _
      have hcf : h.compare j (pyParent h.branching_factor j).toNat = false := by
        rcases Bool.eq_false_or_eq_true
            (h.compare j (pyParent h.branching_factor j).toNat) with hb | hb
        · exact absurd ⟨hpar0, hb⟩ hp
        · exact hb
      have hcle : heapLe h.max_heap (idx h.heap_array j)
          (idx h.heap_array ((j - 1) / h.branching_factor)) := by
        have h2 := (compare_false_iff h j (pyParent h.branching_factor j).toNat).mp hcf
        rwa [pyParent_toNat_eq hbf hj1] at h2
      intro p k hps hk hc
      by_cases hcj : p * h.branching_factor + (k + 1) = j
      · have hpj : p = (j - 1) / h.branching_factor := by
          rw [← hcj]
          exact (child_parent_div hbf hk).symm
        rw [hcj, hpj]
        exact hcle
      · exact hex p k hk hc hcj
  | case1 h j hp ih =>
    intro hbf hlen hj hex hgrand
    have hj1 : 1 ≤ j := by
      rcases Nat.eq_zero_or_pos j with hj0 | hj1
      · exact absurd hp.1 (by rw [hj0]; exact not_le.mpr (pyParent_neg hbf))
      · exact hj1
    have hptn : (pyParent h.branching_factor j).toNat = (j - 1) / h.branching_factor :=
      pyParent_toNat_eq hbf hj1
    rw [hptn] at ih
    have hpn_lt : (j - 1) / h.branching_factor < j := parentN_lt hbf hj1
    have hbeat : beats h.max_heap (idx h.heap_array j)
        (idx h.heap_array ((j - 1) / h.branching_factor)) := by
      have h2 := (compare_iff_beats h j (pyParent h.branching_factor j).toNat).mp hp.2
      rwa [hptn] at h2
    have heq : h.sift_up j =
        (h.swap j ((j - 1) / h.branching_factor)).sift_up
          ((j - 1) / h.branching_factor) := by
      rw [sift_up]
      simp only [dif_pos hp]
      rw [hptn]
    rw [heq]
    have hj_len : j < h.heap_array.length := by omega
    have hpn_len : (j - 1) / h.branching_factor < h.heap_array.length := by omega
    have hne : j ≠ (j - 1) / h.branching_factor := by omega
    have e_pn : idx (swapA h.heap_array j ((j - 1) / h.branching_factor))
        ((j - 1) / h.branching_factor) = idx h.heap_array j := idx_swapA_fst hpn_len
    have e_j : idx (swapA h.heap_array j ((j - 1) / h.branching_factor)) j =
        idx h.heap_array ((j - 1) / h.branching_factor) := idx_swapA_snd hj_len hne
    have e_oth : ∀ m : Nat, m ≠ j → m ≠ (j - 1) / h.branching_factor →
        idx (swapA h.heap_array j ((j - 1) / h.branching_factor)) m = idx h.heap_array m :=
      fun m h1 h2 => idx_swapA_other h1 h2
    have hswbf : 1 ≤ (h.swap j ((j - 1) / h.branching_factor)).branching_factor := hbf
    have hswlen : (h.swap j ((j - 1) / h.branching_factor)).last_index <
        ((h.swap j ((j - 1) / h.branching_factor)).heap_array.length : Int) := by
      rw [swap_last_index, swap_heap_array, length_swapA]
      exact hlen
    have hswj : (((j - 1) / h.branching_factor : Nat) : Int) ≤
        (h.swap j ((j - 1) / h.branching_factor)).last_index := by
      rw [swap_last_index]
      omega
    have hex1 : ∀ p k : Nat, k < h.branching_factor →
        ((p * h.branching_factor + (k + 1) : Nat) : Int) ≤ h.last_index →
        p * h.branching_factor + (k + 1) ≠ (j - 1) / h.branching_factor →
        heapLe h.max_heap
          (idx (swapA h.heap_array j ((j - 1) / h.branching_factor))
            (p * h.branching_factor + (k + 1)))
          (idx (swapA h.heap_array j ((j - 1) / h.branching_factor)) p) := by
      intro p k hk hc hcne
      by_cases hcj : p * h.branching_factor + (k + 1) = j
      · have hpj : p = (j - 1) / h.branching_factor := by
          rw [← hcj]
          exact (child_parent_div hbf hk).symm
        rw [hcj, hpj, e_j, e_pn]
        exact heapLe_of_beats hbeat
      · by_cases hpj : p = j
        · rw [e_oth _ hcj hcne, hpj, e_j]
          exact hgrand k hk hj1 (by rw [← hpj]; exact hc)
        · by_cases hppn : p = (j - 1) / h.branching_factor
          · have e_p : idx (swapA h.heap_array j ((j - 1) / h.branching_factor)) p =
                idx h.heap_array j := by
              rw [hppn]; exact e_pn
            have hbeat_p : beats h.max_heap (idx h.heap_array j) (idx h.heap_array p) := by
              rw [hppn]; exact hbeat
            rw [e_oth _ hcj hcne, e_p]
            exact heapLe_of_heapLe_of_beats (hex p k hk hc hcj) hbeat_p
          · rw [e_oth _ hcj hcne, e_oth _ hpj hppn]
            exact hex p k hk hc hcj
    have hgrand1 : ∀ k : Nat, k < h.branching_factor → 1 ≤ (j - 1) / h.branching_factor →
        ((((j - 1) / h.branching_factor) * h.branching_factor + (k + 1) : Nat) : Int) ≤
          h.last_index →
        heapLe h.max_heap
          (idx (swapA h.heap_array j ((j - 1) / h.branching_factor))
            (((j - 1) / h.branching_factor) * h.branching_factor + (k + 1)))
          (idx (swapA h.heap_array j ((j - 1) / h.branching_factor))
            (((j - 1) / h.branching_factor - 1) / h.branching_factor)) := by
      intro k hk hpn1 hc
      have hg_lt : ((j - 1) / h.branching_factor - 1) / h.branching_factor <
          (j - 1) / h.branching_factor := parentN_lt hbf hpn1
      have hpn_as_child : heapLe h.max_heap (idx h.heap_array ((j - 1) / h.branching_factor))
          (idx h.heap_array (((j - 1) / h.branching_factor - 1) / h.branching_factor)) := by
        have hedge := hex (((j - 1) / h.branching_factor - 1) / h.branching_factor)
          (((j - 1) / h.branching_factor - 1) % h.branching_factor)
          (parent_decomp hbf hpn1).2
        rw [(parent_decomp hbf hpn1).1] at hedge
        exact hedge (by omega) (by omega)
      have hg_oth : idx (swapA h.heap_array j ((j - 1) / h.branching_factor))
          (((j - 1) / h.branching_factor - 1) / h.branching_factor) =
          idx h.heap_array (((j - 1) / h.branching_factor - 1) / h.branching_factor) :=
        e_oth _ (by omega) (by omega)
      by_cases hcj : ((j - 1) / h.branching_factor) * h.branching_factor + (k + 1) = j
      · rw [hcj, e_j, hg_oth]
        exact hpn_as_child
      · have hcpn : ((j - 1) / h.branching_factor) * h.branching_factor + (k + 1) ≠
            (j - 1) / h.branching_factor := by
          have h2 : (j - 1) / h.branching_factor ≤
              ((j - 1) / h.branching_factor) * h.branching_factor :=
            Nat.le_mul_of_pos_right _ hbf
          omega
        rw [e_oth _ hcj hcpn, hg_oth]
        exact heapLe_trans (hex _ k hk hc hcj) hpn_as_child
    obtain ⟨R1, R2⟩ := ih hswbf hswlen hswj hex1 hgrand1
    have R1x : HeapFrom h.max_heap h.branching_factor
        ((h.swap j ((j - 1) / h.branching_factor)).sift_up
          ((j - 1) / h.branching_factor)).heap_array h.last_index 0 := R1
    have R2x : List.Perm
        ((h.swap j ((j - 1) / h.branching_factor)).sift_up
          ((j - 1) / h.branching_factor)).heap_array
        (swapA h.heap_array j ((j - 1) / h.branching_factor)) := R2
    exact ⟨R1x, R2x.trans (swapA_perm hj_len hpn_len)⟩

end DHeap


theorem idx_append_lt {l : List Int} {v : Int} {m : Nat} (hm : m < l.length) :
    idx (l ++ [v]) m = idx l m := by
  unfold idx
  rw [List.getD_eq_getElem?_getD, List.getElem?_append_left hm, ← List.getD_eq_getElem?_getD]

theorem idx_append_self (l : List Int) (v : Int) : idx (l ++ [v]) l.length = v := by
  unfold idx
  rw [List.getD_eq_getElem?_getD, List.getElem?_append_right (Nat.le_refl _)]
  simp

namespace DHeap

/-- The well-formedness invariant every legitimately constructed heap enjoys: a
positive branching factor, physical storage length exactly `last_index + 1`,
and the heap-order property on the whole live range. -/
def Inv (h : DHeap) : Prop :=
  1 ≤ h.branching_factor ∧ (h.heap_array.length : Int) = h.last_index + 1 ∧
  HeapFrom h.max_heap h.branching_factor h.heap_array h.last_index 0

theorem push_pre_heap_array (h : DHeap) (v : Int) :
    (h.push_pre v).heap_array = h.heap_array ++ [v] := rfl

theorem push_pre_last_index (h : DHeap) (v : Int) :
    (h.push_pre v).last_index = h.last_index + 1 := rfl

theorem push_spec (h : DHeap) (v : Int) (hInv : Inv h) :
    Inv (h.push v) ∧
    List.Perm (h.push v).heap_array (v :: h.heap_array) ∧
    (h.push v).branching_factor = h.branching_factor ∧
    (h.push v).max_heap = h.max_heap ∧
    (h.push v).last_index = h.last_index + 1 := by
  obtain ⟨hbf, hlen, hheap⟩ := hInv
  have hn : (h.last_index + 1).toNat = h.heap_array.length := by omega
  have hpush : h.push v = (h.push_pre v).sift_up h.heap_array.length := by
    unfold push
    rw [push_pre_last_index, hn]
  have hlen1 : h.last_index + 1 < ((h.heap_array ++ [v]).length : Int) := by
    rw [List.length_append, List.length_cons, List.length_nil]
    push_cast
    omega
  have hj1 : ((h.heap_array.length : Nat) : Int) ≤ h.last_index + 1 := by omega
  have hex1 : ∀ p k : Nat, k < h.branching_factor →
      ((p * h.branching_factor + (k + 1) : Nat) : Int) ≤ h.last_index + 1 →
      p * h.branching_factor + (k + 1) ≠ h.heap_array.length →
      heapLe h.max_heap (idx (h.heap_array ++ [v]) (p * h.branching_factor + (k + 1)))
        (idx (h.heap_array ++ [v]) p) := by
    intro p k hk hc hcne
    have hpb : p ≤ p * h.branching_factor := Nat.le_mul_of_pos_right p hbf
    have hcN : p * h.branching_factor + (k + 1) < h.heap_array.length := by omega
    have hpN : p < h.heap_array.length := by omega
    rw [idx_append_lt hcN, idx_append_lt hpN]
    exact hheap p k (Nat.zero_le _) hk (by omega)
  have hgrand1 : ∀ k : Nat, k < h.branching_factor → 1 ≤ h.heap_array.length →
      ((h.heap_array.length * h.branching_factor + (k + 1) : Nat) : Int) ≤
        h.last_index + 1 →
      heapLe h.max_heap
        (idx (h.heap_array ++ [v]) (h.heap_array.length * h.branching_factor + (k + 1)))
        (idx (h.heap_array ++ [v]) ((h.heap_array.length - 1) / h.branching_factor)) := by
    intro k hk h1 hc
    exfalso
    have h2 : h.heap_array.length ≤ h.heap_array.length * h.branching_factor :=
      Nat.le_mul_of_pos_right _ hbf
    omega
  obtain ⟨R1, R2⟩ := sift_up_spec (h.push_pre v) h.heap_array.length hbf hlen1 hj1 hex1 hgrand1
  have R1x : HeapFrom h.max_heap h.branching_factor
      ((h.push_pre v).sift_up h.heap_array.length).heap_array (h.last_index + 1) 0 := R1
  have R2x : List.Perm ((h.push_pre v).sift_up h.heap_array.length).heap_array
      (h.heap_array ++ [v]) := R2
  obtain ⟨f1, f2, f3, f4⟩ := sift_up_fields (h.push_pre v) h.heap_array.length
  have f1x : ((h.push_pre v).sift_up h.heap_array.length).last_index = h.last_index + 1 := f1
  have f2x : ((h.push_pre v).sift_up h.heap_array.length).branching_factor =
      h.branching_factor := f2
  have f3x : ((h.push_pre v).sift_up h.heap_array.length).max_heap = h.max_heap := f3
  have f4x : ((h.push_pre v).sift_up h.heap_array.length).heap_array.length =
      h.heap_array.length + 1 := by
    rw [f4, push_pre_heap_array, List.length_append, List.length_cons, List.length_nil]
  rw [hpush]
  refine ⟨⟨?_, ?_, ?_⟩, ?_, ?_, ?_, ?_⟩
  · rw [f2x]; exact hbf
  · rw [f4x, f1x]
    push_cast
    omega
  · rw [f1x, f2x, f3x]
    exact R1x
  · exact R2x.trans (List.perm_append_singleton v h.heap_array)
  · exact f2x
  · exact f3x
  · exact f1x

theorem foldl_push_spec : ∀ (l : List Int) (h0 : DHeap), Inv h0 →
    Inv (l.foldl (fun h v => h.push v) h0) ∧
    Multiset.ofList (l.foldl (fun h v => h.push v) h0).heap_array =
      Multiset.ofList h0.heap_array + Multiset.ofList l ∧
    (l.foldl (fun h v => h.push v) h0).branching_factor = h0.branching_factor ∧
    (l.foldl (fun h v => h.push v) h0).max_heap = h0.max_heap := by
  intro l
  induction l with
  | nil =>
    intro h0 h
    refine ⟨h, ?_, rfl, rfl⟩
    simp
  | cons a l ih =>
    intro h0 h0Inv
    obtain ⟨hInv1, hPerm1, hbf1, hmx1, hlast1⟩ := push_spec h0 a h0Inv
    obtain ⟨hI, hM, hB, hX⟩ := ih (h0.push a) hInv1
    rw [List.foldl_cons]
    refine ⟨hI, ?_, hB.trans hbf1, hX.trans hmx1⟩
    calc Multiset.ofList ((l.foldl (fun h v => h.push v) (h0.push a)).heap_array)
        = Multiset.ofList (h0.push a).heap_array + Multiset.ofList l := hM
      _ = (a ::ₘ Multiset.ofList h0.heap_array) + Multiset.ofList l := by
          rw [Multiset.coe_eq_coe.mpr hPerm1, ← Multiset.cons_coe]
      _ = Multiset.ofList h0.heap_array + Multiset.ofList (a :: l) := by
          rw [← Multiset.cons_coe, Multiset.cons_add, Multiset.add_cons]

theorem init_spec (l : List Int) (mx : Bool) (bf : Nat) (hbf : 1 ≤ bf) :
    Inv (init l mx bf) ∧
    Multiset.ofList (init l mx bf).heap_array = Multiset.ofList l ∧
    (init l mx bf).branching_factor = bf ∧
    (init l mx bf).max_heap = mx := by
  have hbase : Inv ({ branching_factor := bf, max_heap := mx, heap_array := [], last_index := -1 } : DHeap) := by
    refine ⟨hbf, by simp, ?_⟩
    show HeapFrom mx bf [] (-1) 0
    intro p k hp hk hc
    exfalso
    omega
  obtain ⟨hI, hM, hB, hX⟩ := foldl_push_spec l _ hbase
  refine ⟨hI, ?_, hB, hX⟩
  have hM2 : Multiset.ofList (init l mx bf).heap_array =
      Multiset.ofList ([] : List Int) + Multiset.ofList l := hM
  rw [hM2]
  simp

theorem root_max (h : DHeap) (hbf : 1 ≤ h.branching_factor)
    (hheap : HeapFrom h.max_heap h.branching_factor h.heap_array h.last_index 0) :
    ∀ i : Nat, (i : Int) ≤ h.last_index →
      heapLe h.max_heap (idx h.heap_array i) (idx h.heap_array 0) := by
  intro i
  induction i using Nat.strong_induction_on with
  | _ i ih =>
    intro hi
    rcases Nat.eq_zero_or_pos i with h0 | h1
    · subst h0; exact heapLe_refl _ _
    · have hdec := parent_decomp hbf h1
      have hplt : (i - 1) / h.branching_factor < i := parentN_lt hbf h1
      have hedge := hheap ((i - 1) / h.branching_factor) ((i - 1) % h.branching_factor)
        (Nat.zero_le _) hdec.2 (by rw [hdec.1]; exact hi)
      rw [hdec.1] at hedge
      exact heapLe_trans hedge (ih _ hplt (by omega))

end DHeap


theorem idx_take_lt {l : List Int} {k m : Nat} (hm : m < k) : idx (l.take k) m = idx l m := by
  unfold idx
  rw [List.getD_eq_getElem?_getD, List.getElem?_take_of_lt hm, ← List.getD_eq_getElem?_getD]

namespace DHeap

theorem heapify_start_heap_array (l : List Int) (mx : Bool) (bf : Nat) :
    (heapify_start l mx bf).heap_array = l := rfl

theorem heapify_start_last_index (l : List Int) (mx : Bool) (bf : Nat) :
    (heapify_start l mx bf).last_index = (l.length : Int) - 1 := rfl

theorem heapify_start_branching_factor (l : List Int) (mx : Bool) (bf : Nat) :
    (heapify_start l mx bf).branching_factor = bf := rfl

theorem heapify_start_max_heap (l : List Int) (mx : Bool) (bf : Nat) :
    (heapify_start l mx bf).max_heap = mx := rfl

theorem heapify_loop_spec :
    ∀ (h : DHeap) (s : Int),
      1 ≤ h.branching_factor →
      h.last_index < (h.heap_array.length : Int) →
      (∀ p k : Nat, s < (p : Int) → k < h.branching_factor →
        ((p * h.branching_factor + (k + 1) : Nat) : Int) ≤ h.last_index →
        heapLe h.max_heap (idx h.heap_array (p * h.branching_factor + (k + 1)))
          (idx h.heap_array p)) →
      (HeapFrom h.max_heap h.branching_factor (heapify_loop h s).heap_array h.last_index 0 ∧
        List.Perm (heapify_loop h s).heap_array h.heap_array ∧
        (heapify_loop h s).branching_factor = h.branching_factor ∧
        (heapify_loop h s).max_heap = h.max_heap ∧
        (heapify_loop h s).last_index = h.last_index) := by
  intro h s
  induction h, s using heapify_loop.induct with
  | case2 h s hs =>
    intro hbf hlen hinv
    have heq : heapify_loop h s = h := by
      rw [heapify_loop]
      simp only [if_neg hs]
    rw [heq]
    refine ⟨?_, List.Perm.refl _, rfl, rfl, rfl⟩
    intro p k hp hk hc
    exact hinv p k (by omega) hk hc
  | case1 h s hs ih =>
    intro hbf hlen hinv
    have heq : heapify_loop h s = heapify_loop (h.sift_down s.toNat) (s - 1) := by
      rw [heapify_loop]
      simp only [if_pos hs]
    rw [heq]
    have hfrom : HeapFrom h.max_heap h.branching_factor h.heap_array h.last_index
        (s.toNat + 1) := by
      intro p k hp hk hc
      exact hinv p k (by omega) hk hc
    obtain ⟨S1, S2, S3, S4, S5⟩ := sift_down_spec h s.toNat hbf hlen hfrom
    obtain ⟨g1, g2, g3, g4⟩ := sift_down_fields h s.toNat
    have hbf2 : 1 ≤ (h.sift_down s.toNat).branching_factor := by rw [g2]; exact hbf
    have hlen2 : (h.sift_down s.toNat).last_index <
        ((h.sift_down s.toNat).heap_array.length : Int) := by
      rw [g1, g4]; exact hlen
    have hinv2 : ∀ p k : Nat, s - 1 < (p : Int) → k < (h.sift_down s.toNat).branching_factor →
        ((p * (h.sift_down s.toNat).branching_factor + (k + 1) : Nat) : Int) ≤
          (h.sift_down s.toNat).last_index →
        heapLe (h.sift_down s.toNat).max_heap
          (idx (h.sift_down s.toNat).heap_array
            (p * (h.sift_down s.toNat).branching_factor + (k + 1)))
          (idx (h.sift_down s.toNat).heap_array p) := by
      rw [g1, g2, g3]
      intro p k hp hk hc
      exact S1 p k (by omega) hk hc
    obtain ⟨L1, L2, L3, L4, L5⟩ := ih hbf2 hlen2 hinv2
    rw [g3, g2, g1] at L1
    rw [g2] at L3
    rw [g3] at L4
    rw [g1] at L5
    exact ⟨L1, L2.trans S2, L3, L4, L5⟩

theorem heapify_spec (l : List Int) (mx : Bool) (bf : Nat) (hbf : 1 ≤ bf) :
    Inv (heapify l mx bf) ∧
    List.Perm (heapify l mx bf).heap_array l ∧
    (heapify l mx bf).branching_factor = bf ∧
    (heapify l mx bf).max_heap = mx ∧
    (heapify l mx bf).last_index = (l.length : Int) - 1 := by
  have hbfI : (0 : Int) < (bf : Int) := by exact_mod_cast hbf
  have hlen0 : (heapify_start l mx bf).last_index <
      ((heapify_start l mx bf).heap_array.length : Int) := by
    rw [heapify_start_last_index, heapify_start_heap_array]
    omega
  have hbf0 : 1 ≤ (heapify_start l mx bf).branching_factor := by
    rw [heapify_start_branching_factor]; exact hbf
  have hinv0 : ∀ p k : Nat,
      ((heapify_start l mx bf).last_index - 1).fdiv
        (heapify_start l mx bf).branching_factor < (p : Int) →
      k < (heapify_start l mx bf).branching_factor →
      ((p * (heapify_start l mx bf).branching_factor + (k + 1) : Nat) : Int) ≤
        (heapify_start l mx bf).last_index →
      heapLe (heapify_start l mx bf).max_heap
        (idx (heapify_start l mx bf).heap_array
          (p * (heapify_start l mx bf).branching_factor + (k + 1)))
        (idx (heapify_start l mx bf).heap_array p) := by
    rw [heapify_start_last_index, heapify_start_branching_factor, heapify_start_max_heap,
      heapify_start_heap_array]
    intro p k hp hk hc
    exfalso
    rw [Int.fdiv_eq_ediv _ (by omega : (0 : Int) ≤ (bf : Int))] at hp
    have hchar : (l.length : Int) - 1 - 1 <
        (((l.length : Int) - 1 - 1) / (bf : Int) + 1) * (bf : Int) :=
      Int.lt_ediv_add_one_mul_self _ hbfI
    have hmul : (((l.length : Int) - 1 - 1) / (bf : Int) + 1) * (bf : Int) ≤
        (p : Int) * (bf : Int) :=
      mul_le_mul_of_nonneg_right (by omega) (by omega)
    push_cast at hc
    omega
  obtain ⟨L1, L2, L3, L4, L5⟩ := heapify_loop_spec (heapify_start l mx bf)
    (((heapify_start l mx bf).last_index - 1).fdiv
      (heapify_start l mx bf).branching_factor) hbf0 hlen0 hinv0
  have L1x : HeapFrom mx bf (heapify l mx bf).heap_array ((l.length : Int) - 1) 0 := L1
  have L2x : List.Perm (heapify l mx bf).heap_array l := L2
  have L3x : (heapify l mx bf).branching_factor = bf := L3
  have L4x : (heapify l mx bf).max_heap = mx := L4
  have L5x : (heapify l mx bf).last_index = (l.length : Int) - 1 := L5
  refine ⟨⟨?_, ?_, ?_⟩, L2x, L3x, L4x, L5x⟩
  · rw [L3x]; exact hbf
  · rw [L2x.length_eq, L5x]
    omega
  · rw [L3x, L4x, L5x]
    exact L1x

end DHeap


namespace DHeap

theorem pop_removed_heap_array (h : DHeap) :
    h.pop_removed.heap_array =
      (swapA h.heap_array 0 h.last_index.toNat).eraseIdx h.last_index.toNat := rfl

theorem pop_removed_last_index (h : DHeap) :
    h.pop_removed.last_index = h.last_index - 1 := rfl

theorem pop_spec (h : DHeap) (hInv : Inv h) (hne : h.heap_array.length ≠ 0) :
    h.pop = (Except.ok (idx h.heap_array 0), h.pop_removed.sift_down 0) ∧
    Inv (h.pop_removed.sift_down 0) ∧
    (h.pop_removed.sift_down 0).branching_factor = h.branching_factor ∧
    (h.pop_removed.sift_down 0).max_heap = h.max_heap ∧
    (h.pop_removed.sift_down 0).last_index = h.last_index - 1 ∧
    (h.pop_removed.sift_down 0).heap_array.length = h.heap_array.length - 1 ∧
    Multiset.ofList h.heap_array =
      idx h.heap_array 0 ::ₘ Multiset.ofList (h.pop_removed.sift_down 0).heap_array := by
  obtain ⟨hbf, hlen, hheap⟩ := hInv
  have hn1 : 1 ≤ h.heap_array.length := by omega
  have hpeek : h.peek = Except.ok (idx h.heap_array 0) := by
    unfold peek
    rw [if_neg hne]
  have hpop : h.pop = (Except.ok (idx h.heap_array 0), h.pop_removed.sift_down 0) := by
    unfold pop
    rw [hpeek]
  have htn : h.last_index.toNat = h.heap_array.length - 1 := by omega
  have harr : h.pop_removed.heap_array =
      (swapA h.heap_array 0 (h.heap_array.length - 1)).take (h.heap_array.length - 1) := by
    rw [pop_removed_heap_array, htn, List.eraseIdx_eq_take_drop_succ,
      List.drop_eq_nil_of_le (by rw [length_swapA]; omega), List.append_nil]
  have hlen_take : ((swapA h.heap_array 0 (h.heap_array.length - 1)).take
      (h.heap_array.length - 1)).length = h.heap_array.length - 1 := by
    rw [List.length_take, length_swapA]
    omega
  have hlt_last : h.heap_array.length - 1 < (swapA h.heap_array 0
      (h.heap_array.length - 1)).length := by
    rw [length_swapA]; omega
  have hdecomp : swapA h.heap_array 0 (h.heap_array.length - 1) =
      (swapA h.heap_array 0 (h.heap_array.length - 1)).take (h.heap_array.length - 1) ++
        [idx h.heap_array 0] := by
    have hdrop : (swapA h.heap_array 0 (h.heap_array.length - 1)).drop
        (h.heap_array.length - 1) =
        [(swapA h.heap_array 0 (h.heap_array.length - 1))[h.heap_array.length - 1]] := by
      rw [List.drop_eq_getElem_cons hlt_last,
        List.drop_eq_nil_of_le (by rw [length_swapA]; omega)]
    have hval : (swapA h.heap_array 0
        (h.heap_array.length - 1))[h.heap_array.length - 1] = idx h.heap_array 0 := by
      rw [← idx_eq_getElem hlt_last]
      exact idx_swapA_fst (by omega)
    calc swapA h.heap_array 0 (h.heap_array.length - 1)
        = (swapA h.heap_array 0 (h.heap_array.length - 1)).take (h.heap_array.length - 1) ++
            (swapA h.heap_array 0 (h.heap_array.length - 1)).drop (h.heap_array.length - 1) :=
          (List.take_append_drop _ _).symm
      _ = _ := by rw [hdrop, hval]
  have hmsw : Multiset.ofList h.heap_array =
      Multiset.ofList (swapA h.heap_array 0 (h.heap_array.length - 1)) := by
    rw [Multiset.coe_eq_coe]
    exact (swapA_perm (by omega) (by omega)).symm
  have hms : Multiset.ofList h.heap_array =
      idx h.heap_array 0 ::ₘ Multiset.ofList ((swapA h.heap_array 0
        (h.heap_array.length - 1)).take (h.heap_array.length - 1)) := by
    rw [hmsw]
    calc Multiset.ofList (swapA h.heap_array 0 (h.heap_array.length - 1))
        = Multiset.ofList ((swapA h.heap_array 0 (h.heap_array.length - 1)).take
            (h.heap_array.length - 1) ++ [idx h.heap_array 0]) := by rw [← hdecomp]
      _ = Multiset.ofList ((swapA h.heap_array 0 (h.heap_array.length - 1)).take
            (h.heap_array.length - 1)) + Multiset.ofList [idx h.heap_array 0] :=
          (Multiset.coe_add _ _).symm
      _ = _ := by
          rw [add_comm]
          exact Multiset.singleton_add _ _
  have hbf2 : 1 ≤ h.pop_removed.branching_factor := hbf
  have hlen2 : h.pop_removed.last_index < (h.pop_removed.heap_array.length : Int) := by
    rw [pop_removed_last_index, harr, hlen_take]
    omega
  have hfrom2 : HeapFrom h.max_heap h.branching_factor h.pop_removed.heap_array
      (h.last_index - 1) 1 := by
    rw [harr]
    intro p k hp hk hc
    have hpb : p ≤ p * h.branching_factor := Nat.le_mul_of_pos_right p hbf
    have hcN : p * h.branching_factor + (k + 1) < h.heap_array.length - 1 := by omega
    have hpN : p < h.heap_array.length - 1 := by omega
    rw [idx_take_lt hcN, idx_take_lt hpN,
      idx_swapA_other (by omega) (by omega), idx_swapA_other (by omega) (by omega)]
    exact hheap p k (Nat.zero_le _) hk (by omega)
  have hfrom2x : HeapFrom h.pop_removed.max_heap h.pop_removed.branching_factor
      h.pop_removed.heap_array h.pop_removed.last_index (0 + 1) := hfrom2
  obtain ⟨S1, S2, S3, S4, S5⟩ := sift_down_spec h.pop_removed 0 hbf2 hlen2 hfrom2x
  obtain ⟨g1, g2, g3, g4⟩ := sift_down_fields h.pop_removed 0
  have g1x : (h.pop_removed.sift_down 0).last_index = h.last_index - 1 := by
    rw [g1, pop_removed_last_index]
  have g2x : (h.pop_removed.sift_down 0).branching_factor = h.branching_factor := g2
  have g3x : (h.pop_removed.sift_down 0).max_heap = h.max_heap := g3
  have g4x : (h.pop_removed.sift_down 0).heap_array.length = h.heap_array.length - 1 := by
    rw [g4, harr, hlen_take]
  have S1x : HeapFrom h.max_heap h.branching_factor
      (h.pop_removed.sift_down 0).heap_array (h.last_index - 1) 0 := S1
  have S2x : List.Perm (h.pop_removed.sift_down 0).heap_array
      ((swapA h.heap_array 0 (h.heap_array.length - 1)).take (h.heap_array.length - 1)) := by
    have := S2
    rwa [harr] at this
  refine ⟨hpop, ⟨?_, ?_, ?_⟩, g2x, g3x, g1x, g4x, ?_⟩
  · rw [g2x]; exact hbf
  · rw [g4x, g1x]
    push_cast
    omega
  · rw [g2x, g3x, g1x]
    exact S1x
  · rw [hms, Multiset.coe_eq_coe.mpr S2x]

end DHeap


namespace DHeap

theorem peek_empty (h : DHeap) (hne : h.heap_array.length = 0) :
    h.peek = Except.error HeapError.emptyContainer := by
  unfold peek
  rw [if_pos hne]

theorem peek_ok (h : DHeap) (hne : h.heap_array.length ≠ 0) :
    h.peek = Except.ok (idx h.heap_array 0) := by
  unfold peek
  rw [if_neg hne]

theorem pop_empty (h : DHeap) (hne : h.heap_array.length = 0) :
    h.pop = (Except.error HeapError.emptyContainer, h) := by
  unfold pop
  rw [peek_empty h hne]

/-- The heap states reachable by the public construction paths followed by any
sequence of `push` and `pop` calls: the constructor (empty or with initial
contents) and `heapify`, each with a positive branching factor (the
configuration every use in the repository exercises), then arbitrarily many
pushes and pops; a failed pop leaves the state unchanged and is covered too. -/
inductive Reachable : DHeap → Prop where
  | init : ∀ (l : List Int) (mx : Bool) (bf : Nat), 1 ≤ bf → Reachable (DHeap.init l mx bf)
  | heapify : ∀ (l : List Int) (mx : Bool) (bf : Nat), 1 ≤ bf →
      Reachable (DHeap.heapify l mx bf)
  | push : ∀ (h : DHeap) (v : Int), Reachable h → Reachable (h.push v)
  | pop : ∀ (h : DHeap), Reachable h → Reachable (h.pop).2

theorem Inv_of_Reachable (h : DHeap) (hr : Reachable h) : Inv h := by
  induction hr with
  | init l mx bf hbf => exact (init_spec l mx bf hbf).1
  | heapify l mx bf hbf => exact (heapify_spec l mx bf hbf).1
  | push h v hr ih => exact (push_spec h v ih).1
  | pop h hr ih =>
    by_cases hne : h.heap_array.length = 0
    · rw [pop_empty h hne]
      exact ih
    · obtain ⟨hpop, hInv2, _⟩ := pop_spec h ih hne
      rw [hpop]
      exact hInv2

/-- Repeatedly pop the heap, collecting the returned values, with explicit
fuel; popping stops if the heap errors (it does not on the runs we use, where
the fuel is the element count). -/
def popAllAux : Nat → DHeap → List Int
  | 0, _ => []
  | fuel + 1, h =>
    match h.pop with
    | (Except.ok v, h2) => v :: popAllAux fuel h2
    | (Except.error _, _) => []

/-- The list of values obtained by popping the heap until it is empty. -/
def popAll (h : DHeap) : List Int := popAllAux h.heap_array.length h

theorem popAll_aux_spec (fuel : Nat) : ∀ (h : DHeap), Inv h → h.heap_array.length = fuel →
    Multiset.ofList (popAllAux fuel h) = Multiset.ofList h.heap_array ∧
    List.Sorted (fun a b => heapLe h.max_heap b a) (popAllAux fuel h) := by
  induction fuel with
  | zero =>
    intro h hInv hf
    have harr : h.heap_array = [] := List.length_eq_zero.mp hf
    rw [harr]
    exact ⟨rfl, List.sorted_nil⟩
  | succ n ih =>
    intro h hInv hf
    have hne : h.heap_array.length ≠ 0 := by omega
    obtain ⟨hpop, hInv2, hbf2, hmx2, hlast2, hlen2, hms⟩ := pop_spec h hInv hne
    have haux : popAllAux (n + 1) h =
        idx h.heap_array 0 :: popAllAux n (h.pop_removed.sift_down 0) := by
      show (match h.pop with
        | (Except.ok v, h2) => v :: popAllAux n h2
        | (Except.error _, _) => []) = _
      rw [hpop]
    obtain ⟨ihm, ihs⟩ := ih (h.pop_removed.sift_down 0) hInv2 (by omega)
    rw [haux]
    constructor
    · rw [← Multiset.cons_coe, ihm, ← hms]
    · rw [List.sorted_cons]
      constructor
      · intro b hb
        have hb2 : b ∈ Multiset.ofList h.heap_array := by
          rw [hms]
          exact Multiset.mem_cons_of_mem (by rw [← ihm]; exact_mod_cast
            (Multiset.mem_coe.mpr (by
              have hbm : b ∈ popAllAux n (h.pop_removed.sift_down 0) := hb
              have : b ∈ Multiset.ofList (popAllAux n (h.pop_removed.sift_down 0)) :=
                Multiset.mem_coe.mpr hbm
              exact Multiset.mem_coe.mp this)))
        have hbl : b ∈ h.heap_array := Multiset.mem_coe.mp hb2
        obtain ⟨i, hi, hib⟩ := List.mem_iff_getElem.mp hbl
        have hroot := root_max h hInv.1 hInv.2.2 i (by
          have := hInv.2.1
          omega)
        rw [idx_eq_getElem hi, hib] at hroot
        exact hroot
      · rw [hmx2] at ihs
        exact ihs

theorem popAll_spec (h : DHeap) (hInv : Inv h) :
    Multiset.ofList (popAll h) = Multiset.ofList h.heap_array ∧
    List.Sorted (fun a b => heapLe h.max_heap b a) (popAll h) :=
  popAll_aux_spec h.heap_array.length h hInv rfl

end DHeap


namespace DHeap

theorem heapsort_step_heap_array (h : DHeap) :
    (heapsort_step h).heap_array = swapA h.heap_array 0 h.last_index.toNat := rfl

theorem heapsort_step_last_index (h : DHeap) :
    (heapsort_step h).last_index = h.last_index - 1 := rfl

theorem heapsort_loop_spec :
    ∀ (h : DHeap),
      1 ≤ h.branching_factor →
      h.last_index < (h.heap_array.length : Int) →
      HeapFrom h.max_heap h.branching_factor h.heap_array h.last_index 0 →
      (∀ a b : Nat, h.last_index < (a : Int) → a ≤ b → b < h.heap_array.length →
        heapLe h.max_heap (idx h.heap_array a) (idx h.heap_array b)) →
      (∀ i a : Nat, (i : Int) ≤ h.last_index → h.last_index < (a : Int) →
        a < h.heap_array.length →
        heapLe h.max_heap (idx h.heap_array i) (idx h.heap_array a)) →
      (Multiset.ofList (heapsort_loop h).heap_array = Multiset.ofList h.heap_array ∧
        (heapsort_loop h).heap_array.length = h.heap_array.length ∧
        (heapsort_loop h).max_heap = h.max_heap ∧
        (∀ a b : Nat, a ≤ b → b < (heapsort_loop h).heap_array.length →
          heapLe h.max_heap (idx (heapsort_loop h).heap_array a)
            (idx (heapsort_loop h).heap_array b))) := by
  intro h
  induction h using heapsort_loop.induct with
  | case2 h hs =>
    intro hbf hlen hheap htail hbdy
    have heq : heapsort_loop h = h := by
      rw [heapsort_loop]
      simp only [if_neg hs]
    rw [heq]
    refine ⟨rfl, rfl, rfl, ?_⟩
    intro a b hab hb
    exact htail a b (by omega) hab hb
  | case1 h hs ih =>
    intro hbf hlen hheap htail hbdy
    have heq : heapsort_loop h = heapsort_loop ((heapsort_step h).sift_down 0) := by
      conv_lhs => rw [heapsort_loop]
      simp only [if_pos hs]
    have hlastN : (h.last_index.toNat : Int) = h.last_index := Int.toNat_of_nonneg hs
    have hlastN_lt : h.last_index.toNat < h.heap_array.length := by omega
    have h0_lt : 0 < h.heap_array.length := by omega
    have e_last : idx (swapA h.heap_array 0 h.last_index.toNat) h.last_index.toNat =
        idx h.heap_array 0 := idx_swapA_fst hlastN_lt
    have e0 : idx (swapA h.heap_array 0 h.last_index.toNat) 0 =
        idx h.heap_array h.last_index.toNat := by
      rcases Nat.eq_zero_or_pos h.last_index.toNat with hl0 | hl0
      · rw [hl0]
        rw [hl0] at e_last
        exact e_last
      · exact idx_swapA_snd h0_lt (by omega)
    have e_oth : ∀ m : Nat, m ≠ 0 → m ≠ h.last_index.toNat →
        idx (swapA h.heap_array 0 h.last_index.toNat) m = idx h.heap_array m :=
      fun m h1 h2 => idx_swapA_other h1 h2
    have hbf2 : 1 ≤ (heapsort_step h).branching_factor := hbf
    have hlen2 : (heapsort_step h).last_index <
        ((heapsort_step h).heap_array.length : Int) := by
      rw [heapsort_step_last_index, heapsort_step_heap_array, length_swapA]
      omega
    have hfrom2 : HeapFrom (heapsort_step h).max_heap (heapsort_step h).branching_factor
        (heapsort_step h).heap_array (heapsort_step h).last_index (0 + 1) := by
      rw [heapsort_step_heap_array, heapsort_step_last_index]
      show HeapFrom h.max_heap h.branching_factor _ _ 1
      intro p k hp hk hc
      have hpb : p ≤ p * h.branching_factor := Nat.le_mul_of_pos_right p hbf
      rw [e_oth _ (by omega) (by omega), e_oth _ (by omega) (by omega)]
      exact hheap p k (Nat.zero_le _) hk (by omega)
    obtain ⟨S1, S2, S3, S4, S5⟩ := sift_down_spec (heapsort_step h) 0 hbf2 hlen2 hfrom2
    obtain ⟨g1, g2, g3, g4⟩ := sift_down_fields (heapsort_step h) 0
    have g1x : ((heapsort_step h).sift_down 0).last_index = h.last_index - 1 := g1
    have g2x : ((heapsort_step h).sift_down 0).branching_factor = h.branching_factor := g2
    have g3x : ((heapsort_step h).sift_down 0).max_heap = h.max_heap := g3
    have g4x : ((heapsort_step h).sift_down 0).heap_array.length = h.heap_array.length := by
      rw [g4, heapsort_step_heap_array, length_swapA]
    have S1x : HeapFrom h.max_heap h.branching_factor
        ((heapsort_step h).sift_down 0).heap_array (h.last_index - 1) 0 := S1
    have S2x : List.Perm ((heapsort_step h).sift_down 0).heap_array
        (swapA h.heap_array 0 h.last_index.toNat) := S2
    have S3x : ∀ m : Nat, idx ((heapsort_step h).sift_down 0).heap_array m ≠
        idx (swapA h.heap_array 0 h.last_index.toNat) m →
        Desc h.branching_factor 0 m ∧ (m : Int) ≤ h.last_index - 1 := S3
    have S4x : ∀ m : Nat, ∃ m0 : Nat, ((m0 : Int) ≤ h.last_index - 1 ∨ m0 = m) ∧
        idx ((heapsort_step h).sift_down 0).heap_array m =
          idx (swapA h.heap_array 0 h.last_index.toNat) m0 := S4
    have hU : ∀ m : Nat, h.last_index - 1 < (m : Int) →
        idx ((heapsort_step h).sift_down 0).heap_array m =
          idx (swapA h.heap_array 0 h.last_index.toNat) m := by
      intro m hm
      by_contra hne2
      have := (S3x m hne2).2
      omega
    have hV : ∀ i : Nat, (i : Int) ≤ h.last_index - 1 →
        ∃ m1 : Nat, (m1 : Int) ≤ h.last_index ∧
          idx ((heapsort_step h).sift_down 0).heap_array i = idx h.heap_array m1 := by
      intro i hi
      obtain ⟨m0, hm0, he⟩ := S4x i
      have hm0le : (m0 : Int) ≤ h.last_index - 1 := by
        rcases hm0 with hm0 | hm0
        · exact hm0
        · omega
      by_cases hm00 : m0 = 0
      · refine ⟨h.last_index.toNat, by omega, ?_⟩
        rw [he, hm00, e0]
      · have hm0n : m0 ≠ h.last_index.toNat := by omega
        refine ⟨m0, by omega, ?_⟩
        rw [he, e_oth m0 hm00 hm0n]
    have htail2 : ∀ a b : Nat, h.last_index - 1 < (a : Int) → a ≤ b →
        b < h.heap_array.length →
        heapLe h.max_heap (idx ((heapsort_step h).sift_down 0).heap_array a)
          (idx ((heapsort_step h).sift_down 0).heap_array b) := by
      intro a b ha hab hb
      rw [hU a ha, hU b (by omega)]
      by_cases haL : a = h.last_index.toNat
      · by_cases hbL : b = h.last_index.toNat
        · rw [haL, hbL]
          exact heapLe_refl _ _
        · have hbgt : h.last_index < (b : Int) := by omega
          rw [haL, e_last, e_oth b (by omega) hbL]
          exact hbdy 0 b hs hbgt hb
      · have hagt : h.last_index < (a : Int) := by omega
        have hbL : b ≠ h.last_index.toNat := by omega
        rw [e_oth a (by omega) haL, e_oth b (by omega) hbL]
        exact htail a b hagt hab hb
    have hbdy2 : ∀ i a : Nat, (i : Int) ≤ h.last_index - 1 →
        h.last_index - 1 < (a : Int) → a < h.heap_array.length →
        heapLe h.max_heap (idx ((heapsort_step h).sift_down 0).heap_array i)
          (idx ((heapsort_step h).sift_down 0).heap_array a) := by
      intro i a hi ha haN
      obtain ⟨m1, hm1, he1⟩ := hV i hi
      rw [he1, hU a ha]
      by_cases haL : a = h.last_index.toNat
      · rw [haL, e_last]
        exact root_max h hbf hheap m1 hm1
      · have hagt : h.last_index < (a : Int) := by omega
        rw [e_oth a (by omega) haL]
        exact hbdy m1 a hm1 hagt haN
    obtain ⟨M1, M2, M3, M4⟩ := ih
      (by rw [g2x]; exact hbf)
      (by rw [g1x, g4x]; omega)
      (by rw [g3x, g2x, g1x]; exact S1x)
      (by rw [g3x, g1x, g4x]; exact htail2)
      (by rw [g3x, g1x, g4x]; exact hbdy2)
    rw [g3x] at M3 M4
    rw [heq]
    refine ⟨?_, ?_, M3, M4⟩
    · calc Multiset.ofList (heapsort_loop ((heapsort_step h).sift_down 0)).heap_array
          = Multiset.ofList ((heapsort_step h).sift_down 0).heap_array := M1
        _ = Multiset.ofList (swapA h.heap_array 0 h.last_index.toNat) :=
            Multiset.coe_eq_coe.mpr S2x
        _ = Multiset.ofList h.heap_array :=
            Multiset.coe_eq_coe.mpr (swapA_perm h0_lt hlastN_lt)
    · rw [M2, g4x]

end DHeap


namespace DHeap

theorem heapsort_spec (l : List Int) (asc : Bool) :
    Multiset.ofList (heapsort l asc) = Multiset.ofList l ∧
    (heapsort l asc).length = l.length ∧
    (∀ a b : Nat, a ≤ b → b < (heapsort l asc).length →
      heapLe asc (idx (heapsort l asc) a) (idx (heapsort l asc) b)) := by
  obtain ⟨⟨hbf0, hlen0, hheap0⟩, hperm0, hbfx, hmxx, hlastx⟩ :=
    heapify_spec l asc 2 (by omega)
  have htail0 : ∀ a b : Nat, (heapify l asc 2).last_index < (a : Int) → a ≤ b →
      b < (heapify l asc 2).heap_array.length →
      heapLe (heapify l asc 2).max_heap (idx (heapify l asc 2).heap_array a)
        (idx (heapify l asc 2).heap_array b) := by
    intro a b ha hab hb
    exfalso
    omega
  have hbdy0 : ∀ i a : Nat, (i : Int) ≤ (heapify l asc 2).last_index →
      (heapify l asc 2).last_index < (a : Int) →
      a < (heapify l asc 2).heap_array.length →
      heapLe (heapify l asc 2).max_heap (idx (heapify l asc 2).heap_array i)
        (idx (heapify l asc 2).heap_array a) := by
    intro i a hi ha haN
    exfalso
    omega
  obtain ⟨M1, M2, M3, M4⟩ :=
    heapsort_loop_spec (heapify l asc 2) hbf0 (by omega) hheap0 htail0 hbdy0
  have M1x : Multiset.ofList (heapsort l asc) =
      Multiset.ofList (heapify l asc 2).heap_array := M1
  have M2x : (heapsort l asc).length = (heapify l asc 2).heap_array.length := M2
  have M4x : ∀ a b : Nat, a ≤ b → b < (heapsort l asc).length →
      heapLe (heapify l asc 2).max_heap (idx (heapsort l asc) a)
        (idx (heapsort l asc) b) := M4
  rw [hmxx] at M4x
  refine ⟨?_, ?_, M4x⟩
  · rw [M1x, Multiset.coe_eq_coe.mpr hperm0]
  · rw [M2x, hperm0.length_eq]

end DHeap

theorem sorted_of_pairwise_idx {mx : Bool} {r : List Int}
    (hs : ∀ a b : Nat, a ≤ b → b < r.length → heapLe mx (idx r a) (idx r b)) :
    (mx = true → List.Sorted (· ≤ ·) r) ∧ (mx = false → List.Sorted (· ≥ ·) r) := by
  have key : ∀ (i j : Fin r.length), i < j → heapLe mx (r.get i) (r.get j) := by
    intro i j hij
    have h1 := hs i.val j.val (Nat.le_of_lt hij) j.isLt
    rwa [idx_eq_getElem i.isLt, idx_eq_getElem j.isLt] at h1
  constructor
  · intro hmx
    subst hmx
    exact List.pairwise_iff_get.mpr (fun i j hij => key i j hij)
  · intro hmx
    subst hmx
    exact List.pairwise_iff_get.mpr (fun i j hij => key i j hij)


theorem range_find_helper (bf : Nat) (fc : Nat) (last : Int) :
    (List.range bf).find? (fun i => decide (((fc + i : Nat) : Int) ≤ last)) =
      (if 1 ≤ bf ∧ ((fc : Nat) : Int) ≤ last then some 0 else none) := by
  rcases Nat.eq_zero_or_pos bf with h0 | h1
  · subst h0
    simp
  · obtain ⟨m, rfl⟩ : ∃ m, bf = m + 1 := ⟨bf - 1, by omega⟩
    rw [List.range_succ_eq_map]
    by_cases hfc : ((fc : Nat) : Int) ≤ last
    · rw [List.find?_cons_of_pos _ (by simpa using hfc)]
      simp [hfc]
    · rw [List.find?_cons_of_neg _ (by simpa using hfc)]
      rw [if_neg (by simp [hfc])]
      rw [List.find?_eq_none]
      intro x hx
      simp only [List.mem_map] at hx
      obtain ⟨i, hi, hxi⟩ := hx
      simp only [decide_eq_true_eq]
      omega

theorem validate_unfold (h : DHeap) (parent : Nat) :
    h.validate_heap parent =
      (if 1 ≤ h.branching_factor ∧
          ((parent * h.branching_factor + 1 : Nat) : Int) ≤ h.last_index then
        (if h.compare (parent * h.branching_factor + 1) parent then false
         else h.validate_heap (parent * h.branching_factor + 1))
      else true) := by
  rw [DHeap.validate_heap]
  rw [range_find_helper]
  by_cases hc : 1 ≤ h.branching_factor ∧
      ((parent * h.branching_factor + 1 : Nat) : Int) ≤ h.last_index
  · rw [if_pos hc, if_pos hc]
  · rw [if_neg hc, if_neg hc]

/-- An example heap built by the public interface (used to instantiate the
reachability-based theorems at a concrete state): an empty binary max-heap
with 7 and then 3 pushed onto it. -/
def exHeap : DHeap := ((DHeap.init [] true 2).push 7).push 3

theorem exHeap_reachable : DHeap.Reachable exHeap :=
  DHeap.Reachable.push _ 3 (DHeap.Reachable.push _ 7
    (DHeap.Reachable.init [] true 2 (by omega)))

theorem exHeap_last_index : exHeap.last_index = 1 := by
  have hInv0 := (DHeap.init_spec [] true 2 (by omega)).1
  have h1 := DHeap.push_spec (DHeap.init [] true 2) 7 hInv0
  have h2 := DHeap.push_spec ((DHeap.init [] true 2).push 7) 3 h1.1
  show (((DHeap.init [] true 2).push 7).push 3).last_index = 1
  rw [h2.2.2.2.2, h1.2.2.2.2]
  decide

theorem exHeap_branching_factor : exHeap.branching_factor = 2 := by
  have hInv0 := (DHeap.init_spec [] true 2 (by omega)).1
  have h1 := DHeap.push_spec (DHeap.init [] true 2) 7 hInv0
  have h2 := DHeap.push_spec ((DHeap.init [] true 2).push 7) 3 h1.1
  show (((DHeap.init [] true 2).push 7).push 3).branching_factor = 2
  rw [h2.2.2.1, h1.2.2.1]
  decide

/-- C1: for every heap reachable by construction (the constructor, empty or
with initial contents, or `heapify`, each with a positive branching factor)
followed by any sequence of `push` and `pop` operations, after each operation
the heap property holds: for every slot `i` and every child
`c = i*branching_factor + k + 1` (`k < branching_factor`) with `c < size`
(where `size = len() = last_index + 1`), the parent's value is at least as
extreme as the child's: `storage[i] ≥ storage[c]` for a max-heap and
`storage[i] ≤ storage[c]` for a min-heap. -/
theorem C1_heap_invariant (h : DHeap) (hr : DHeap.Reachable h) :
    ∀ i k : Nat, k < h.branching_factor →
      ((i * h.branching_factor + (k + 1) : Nat) : Int) < h.len →
      heapLe h.max_heap (idx h.heap_array (i * h.branching_factor + (k + 1)))
        (idx h.heap_array i) := by
  obtain ⟨hbf, hlen, hheap⟩ := DHeap.Inv_of_Reachable h hr
  intro i k hk hc
  refine hheap i k (Nat.zero_le _) hk ?_
  have : h.len = h.last_index + 1 := rfl
  omega

/-- C1 witness: the heap property instance at the root of a concrete reachable
heap (push 7 then push 3 onto an empty binary max-heap). -/
theorem C1_heap_invariant_witness :
    heapLe exHeap.max_heap
      (idx exHeap.heap_array (0 * exHeap.branching_factor + (0 + 1)))
      (idx exHeap.heap_array 0) := by
  apply C1_heap_invariant exHeap exHeap_reachable 0 0
  · rw [exHeap_branching_factor]
    omega
  · have h1 : exHeap.len = exHeap.last_index + 1 := rfl
    rw [exHeap_branching_factor]
    rw [h1, exHeap_last_index]
    decide

/-- C2: for every non-empty reachable heap, `pop` returns the element stored at
the root (index 0); that element is the most extreme of the stored multiset
(maximum for a max-heap, minimum for a min-heap); the size decreases by
exactly 1; the remaining contents are the original multiset minus one
occurrence of the returned element; and popping all elements yields them in
fully sorted order — descending for a max-heap, ascending for a min-heap. -/
theorem C2_pop_correct (h : DHeap) (hr : DHeap.Reachable h) (hne : 0 < h.len) :
    (∃ h2 : DHeap, h.pop = (Except.ok (idx h.heap_array 0), h2) ∧
      h2.len = h.len - 1 ∧
      Multiset.ofList h.heap_array =
        idx h.heap_array 0 ::ₘ Multiset.ofList h2.heap_array) ∧
    (∀ x ∈ h.heap_array, heapLe h.max_heap x (idx h.heap_array 0)) ∧
    Multiset.ofList (DHeap.popAll h) = Multiset.ofList h.heap_array ∧
    (h.max_heap = true → List.Sorted (· ≥ ·) (DHeap.popAll h)) ∧
    (h.max_heap = false → List.Sorted (· ≤ ·) (DHeap.popAll h)) := by
  have hInv := DHeap.Inv_of_Reachable h hr
  obtain ⟨hbf, hlen, hheap⟩ := hInv
  have hlen0 : h.heap_array.length ≠ 0 := by
    have h1 : h.len = h.last_index + 1 := rfl
    omega
  obtain ⟨hpop, hInv2, hbf2, hmx2, hlast2, hlen2, hms⟩ :=
    DHeap.pop_spec h ⟨hbf, hlen, hheap⟩ hlen0
  obtain ⟨hmall, hmsorted⟩ := DHeap.popAll_spec h ⟨hbf, hlen, hheap⟩
  refine ⟨⟨h.pop_removed.sift_down 0, hpop, ?_, hms⟩, ?_, hmall, ?_, ?_⟩
  · show (h.pop_removed.sift_down 0).last_index + 1 = h.last_index + 1 - 1
    omega
  · intro x hx
    obtain ⟨i, hi, hib⟩ := List.mem_iff_getElem.mp hx
    have hroot := DHeap.root_max h hbf hheap i (by omega)
    rwa [idx_eq_getElem hi, hib] at hroot
  · intro hmx
    rw [hmx] at hmsorted
    exact hmsorted
  · intro hmx
    rw [hmx] at hmsorted
    exact hmsorted

/-- C2 witness: the pop behaviour at the concrete reachable heap `exHeap`. -/
theorem C2_pop_correct_witness :
    (∃ h2 : DHeap, exHeap.pop = (Except.ok (idx exHeap.heap_array 0), h2) ∧
      h2.len = exHeap.len - 1 ∧
      Multiset.ofList exHeap.heap_array =
        idx exHeap.heap_array 0 ::ₘ Multiset.ofList h2.heap_array) ∧
    (∀ x ∈ exHeap.heap_array, heapLe exHeap.max_heap x (idx exHeap.heap_array 0)) ∧
    Multiset.ofList (DHeap.popAll exHeap) = Multiset.ofList exHeap.heap_array ∧
    (exHeap.max_heap = true → List.Sorted (· ≥ ·) (DHeap.popAll exHeap)) ∧
    (exHeap.max_heap = false → List.Sorted (· ≤ ·) (DHeap.popAll exHeap)) := by
  apply C2_pop_correct exHeap exHeap_reachable
  have h1 : exHeap.len = exHeap.last_index + 1 := rfl
  rw [h1, exHeap_last_index]
  omega

/-- C3: `heapsort(sequence, ascending)` leaves the sequence holding exactly the
original elements (same multiset, same length), in ascending order when
`ascending` is true and descending order when false; in particular
`heapsort([1,5,64,64,12315,677,-15,-1002], ascending=true)` yields
`[-1002,-15,1,5,64,64,677,12315]`. -/
theorem C3_heapsort_correct (l : List Int) (ascending : Bool) :
    Multiset.ofList (DHeap.heapsort l ascending) = Multiset.ofList l ∧
    (DHeap.heapsort l ascending).length = l.length ∧
    (ascending = true → List.Sorted (· ≤ ·) (DHeap.heapsort l ascending)) ∧
    (ascending = false → List.Sorted (· ≥ ·) (DHeap.heapsort l ascending)) ∧
    DHeap.heapsort [1, 5, 64, 64, 12315, 677, -15, -1002] true =
      [-1002, -15, 1, 5, 64, 64, 677, 12315] := by
  obtain ⟨hm, hlen, hsorted⟩ := DHeap.heapsort_spec l ascending
  obtain ⟨s1, s2⟩ := sorted_of_pairwise_idx hsorted
  refine ⟨hm, hlen, s1, s2, ?_⟩
  obtain ⟨me, lene, sortede⟩ :=
    DHeap.heapsort_spec [1, 5, 64, 64, 12315, 677, -15, -1002] true
  have hsort : List.Sorted (· ≤ ·)
      (DHeap.heapsort [1, 5, 64, 64, 12315, 677, -15, -1002] true) :=
    (sorted_of_pairwise_idx sortede).1 rfl
  have hperm : List.Perm (DHeap.heapsort [1, 5, 64, 64, 12315, 677, -15, -1002] true)
      [-1002, -15, 1, 5, 64, 64, 677, 12315] := by
    rw [← Multiset.coe_eq_coe, me, Multiset.coe_eq_coe]
    decide
  exact List.eq_of_perm_of_sorted hperm hsort (by decide)

/-- C3 witness: the sortedness conclusion instantiated at the spec's example
input with `ascending = true`. -/
theorem C3_heapsort_correct_witness :
    List.Sorted (· ≤ ·) (DHeap.heapsort [1, 5, 64, 64, 12315, 677, -15, -1002] true) :=
  (C3_heapsort_correct [1, 5, 64, 64, 12315, 677, -15, -1002] true).2.2.1 rfl

/-- C4: `peek` and `pop` fail with the EmptyContainer error exactly when
`size = 0` (they never return a sentinel value: on a non-empty heap they
return an actual element), and a failing `pop` leaves the heap state
completely unchanged — the failure happens inside the initial `peek`, before
any mutation. -/
theorem C4_empty_errors (h : DHeap)
    (hlen : (h.heap_array.length : Int) = h.last_index + 1) :
    (h.len = 0 → h.peek = Except.error HeapError.emptyContainer ∧
      h.pop = (Except.error HeapError.emptyContainer, h)) ∧
    (h.len ≠ 0 → (∃ v, h.peek = Except.ok v) ∧ (∃ v h2, h.pop = (Except.ok v, h2))) := by
  have hlendef : h.len = h.last_index + 1 := rfl
  constructor
  · intro h0
    have hl0 : h.heap_array.length = 0 := by omega
    exact ⟨DHeap.peek_empty h hl0, DHeap.pop_empty h hl0⟩
  · intro h0
    have hl0 : h.heap_array.length ≠ 0 := by omega
    refine ⟨⟨idx h.heap_array 0, DHeap.peek_ok h hl0⟩,
      idx h.heap_array 0, h.pop_removed.sift_down 0, ?_⟩
    unfold DHeap.pop
    rw [DHeap.peek_ok h hl0]

/-- C4 witness: the behaviour at the concrete empty heap state. -/
theorem C4_empty_errors_witness :
    (DHeap.len { branching_factor := 2, max_heap := true, heap_array := [], last_index := -1 } = 0 →
      DHeap.peek { branching_factor := 2, max_heap := true, heap_array := [], last_index := -1 } =
        Except.error HeapError.emptyContainer ∧
      DHeap.pop { branching_factor := 2, max_heap := true, heap_array := [], last_index := -1 } =
        (Except.error HeapError.emptyContainer,
          { branching_factor := 2, max_heap := true, heap_array := [], last_index := -1 })) ∧
    (DHeap.len { branching_factor := 2, max_heap := true, heap_array := [], last_index := -1 } ≠ 0 →
      (∃ v, DHeap.peek { branching_factor := 2, max_heap := true, heap_array := [], last_index := -1 } = Except.ok v) ∧
      (∃ v h2, DHeap.pop { branching_factor := 2, max_heap := true, heap_array := [], last_index := -1 } = (Except.ok v, h2))) :=
  C4_empty_errors { branching_factor := 2, max_heap := true, heap_array := [], last_index := -1 }
    (by decide)

/-- C5 counterexample: the claim "for every branching_factor < 1 the
constructor raises rather than returning a heap object" is false on the code:
`DHeap(branching_factor=0)` (empty initial contents) performs no validation at
all and returns a perfectly ordinary heap object storing that branching
factor. -/
theorem C5_counterexample :
    DHeap.init [] true 0 =
      { branching_factor := 0, max_heap := true, heap_array := [], last_index := -1 } := rfl

/-- C5 amended: the constructor performs no validation of `branching_factor`
and never raises an InvalidConfiguration error; for every `max_heap` flag and
every branching factor (including every value < 1 representable here, i.e. 0)
construction with empty initial contents completes normally, returning the
heap object with exactly the given configuration. -/
theorem C5_amended (mx : Bool) (bf : Nat) :
    DHeap.init [] mx bf =
      { branching_factor := bf, max_heap := mx, heap_array := [], last_index := -1 } := rfl

/-- C6: `validate_heap` examines only the first in-range child below an index
(the loop body returns on the first child that is in range, so only the first
slot of the branching_factor-sized child block is ever compared), and on
finding that child in order it recurses into only that one child; consequently
it verifies a single root-to-leaf path, and there is a heap state violating
the heap property at a non-first child (here child 2 of the root, with value 5
above the root value 1, in a state with consistent physical length) on which
`validate_heap(0)` still returns true. -/
theorem C6_validate_gap :
    (∀ (h : DHeap) (parent : Nat),
      h.validate_heap parent =
        (if 1 ≤ h.branching_factor ∧
            ((parent * h.branching_factor + 1 : Nat) : Int) ≤ h.last_index then
          (if h.compare (parent * h.branching_factor + 1) parent then false
           else h.validate_heap (parent * h.branching_factor + 1))
        else true)) ∧
    (DHeap.validate_heap
        { branching_factor := 2, max_heap := true, heap_array := [1, 0, 5], last_index := 2 }
        0 = true ∧
      ¬ heapLe true
        (idx [1, 0, 5] (0 * 2 + (1 + 1)))
        (idx [1, 0, 5] 0) ∧
      (([1, 0, 5] : List Int).length : Int) = 2 + 1) := by
  refine ⟨validate_unfold, ?_, by decide, by decide⟩
  rw [validate_unfold]
  rw [if_pos (by decide)]
  rw [if_neg (by decide)]
  rw [validate_unfold]
  rw [if_neg (by decide)]

/-- C7: at each position of the sift-down used by pop, the slot selected by the
scan is the most extreme among the current node and its in-range children
(every in-range child and the node itself are no more extreme than it); when
several children are equally extreme the selected one is the lowest-indexed
(leftmost) in-range child, every earlier in-range child being strictly less
extreme; the selected slot is a genuine in-range child whenever it differs
from the node, in which case it strictly beats the node; and when no child
strictly beats the node no swap happens — `sift_down` leaves the state
unchanged. -/
theorem C7_sift_down_selection (h : DHeap) (j : Nat) (hbf : 1 ≤ h.branching_factor) :
    heapLe h.max_heap (idx h.heap_array j) (idx h.heap_array (h.sift_down_pick j)) ∧
    (∀ k, k < h.branching_factor →
      ((j * h.branching_factor + (k + 1) : Nat) : Int) ≤ h.last_index →
      heapLe h.max_heap (idx h.heap_array (j * h.branching_factor + (k + 1)))
        (idx h.heap_array (h.sift_down_pick j))) ∧
    (h.sift_down_pick j ≠ j →
      (∃ k, k < h.branching_factor ∧
        h.sift_down_pick j = j * h.branching_factor + (k + 1) ∧
        ((h.sift_down_pick j : Nat) : Int) ≤ h.last_index) ∧
      beats h.max_heap (idx h.heap_array (h.sift_down_pick j)) (idx h.heap_array j)) ∧
    (∀ k, k < h.branching_factor →
      ((j * h.branching_factor + (k + 1) : Nat) : Int) ≤ h.last_index →
      j * h.branching_factor + (k + 1) < h.sift_down_pick j →
      beats h.max_heap (idx h.heap_array (h.sift_down_pick j))
        (idx h.heap_array (j * h.branching_factor + (k + 1)))) ∧
    (h.sift_down_pick j = j → h.sift_down j = h) := by
  obtain ⟨hp1, hp2, hp3, hp4⟩ := DHeap.sift_down_pick_spec h j hbf
  refine ⟨hp2, hp3, ?_, ?_, ?_⟩
  · intro hne
    rcases hp1 with hp1 | ⟨k, hk, hke, hkl, hkb⟩
    · exact absurd hp1 hne
    · exact ⟨⟨k, hk, hke, hkl⟩, hkb⟩
  · intro k hk hkin hklt
    exact hp4 k hk hklt hkin
  · intro hnp
    rw [DHeap.sift_down]
    simp [hnp]

/-- C7 witness: the selection facts at a concrete three-element binary
max-heap state with the scan started at the root. -/
theorem C7_sift_down_selection_witness :
    heapLe (DHeap.mk 2 true [1, 5, 3] 2).max_heap
      (idx (DHeap.mk 2 true [1, 5, 3] 2).heap_array 0)
      (idx (DHeap.mk 2 true [1, 5, 3] 2).heap_array
        ((DHeap.mk 2 true [1, 5, 3] 2).sift_down_pick 0)) ∧
    (∀ k, k < (DHeap.mk 2 true [1, 5, 3] 2).branching_factor →
      ((0 * (DHeap.mk 2 true [1, 5, 3] 2).branching_factor + (k + 1) : Nat) : Int) ≤
        (DHeap.mk 2 true [1, 5, 3] 2).last_index →
      heapLe (DHeap.mk 2 true [1, 5, 3] 2).max_heap
        (idx (DHeap.mk 2 true [1, 5, 3] 2).heap_array
          (0 * (DHeap.mk 2 true [1, 5, 3] 2).branching_factor + (k + 1)))
        (idx (DHeap.mk 2 true [1, 5, 3] 2).heap_array
          ((DHeap.mk 2 true [1, 5, 3] 2).sift_down_pick 0))) ∧
    ((DHeap.mk 2 true [1, 5, 3] 2).sift_down_pick 0 ≠ 0 →
      (∃ k, k < (DHeap.mk 2 true [1, 5, 3] 2).branching_factor ∧
        (DHeap.mk 2 true [1, 5, 3] 2).sift_down_pick 0 =
          0 * (DHeap.mk 2 true [1, 5, 3] 2).branching_factor + (k + 1) ∧
        (((DHeap.mk 2 true [1, 5, 3] 2).sift_down_pick 0 : Nat) : Int) ≤
          (DHeap.mk 2 true [1, 5, 3] 2).last_index) ∧
      beats (DHeap.mk 2 true [1, 5, 3] 2).max_heap
        (idx (DHeap.mk 2 true [1, 5, 3] 2).heap_array
          ((DHeap.mk 2 true [1, 5, 3] 2).sift_down_pick 0))
        (idx (DHeap.mk 2 true [1, 5, 3] 2).heap_array 0)) ∧
    (∀ k, k < (DHeap.mk 2 true [1, 5, 3] 2).branching_factor →
      ((0 * (DHeap.mk 2 true [1, 5, 3] 2).branching_factor + (k + 1) : Nat) : Int) ≤
        (DHeap.mk 2 true [1, 5, 3] 2).last_index →
      0 * (DHeap.mk 2 true [1, 5, 3] 2).branching_factor + (k + 1) <
        (DHeap.mk 2 true [1, 5, 3] 2).sift_down_pick 0 →
      beats (DHeap.mk 2 true [1, 5, 3] 2).max_heap
        (idx (DHeap.mk 2 true [1, 5, 3] 2).heap_array
          ((DHeap.mk 2 true [1, 5, 3] 2).sift_down_pick 0))
        (idx (DHeap.mk 2 true [1, 5, 3] 2).heap_array
          (0 * (DHeap.mk 2 true [1, 5, 3] 2).branching_factor + (k + 1)))) ∧
    ((DHeap.mk 2 true [1, 5, 3] 2).sift_down_pick 0 = 0 →
      (DHeap.mk 2 true [1, 5, 3] 2).sift_down 0 = DHeap.mk 2 true [1, 5, 3] 2) :=
  C7_sift_down_selection (DHeap.mk 2 true [1, 5, 3] 2) 0 (by decide)

/-- C9: constructing a heap from an existing sequence (the constructor with
`initial_contents`) pushes each element one at a time into fresh storage and
never mutates the caller's sequence: after construction the caller's list is
unchanged, while the produced heap is a well-formed heap over the same
multiset of values. -/
theorem C9_init_nonmutating (l : List Int) (mx : Bool) (bf : Nat) (hbf : 1 ≤ bf) :
    (DHeap.init_caller l mx bf).1 = l ∧
    (DHeap.init_caller l mx bf).2 =
      l.foldl (fun h v => h.push v)
        { branching_factor := bf, max_heap := mx, heap_array := [], last_index := -1 } ∧
    Multiset.ofList (DHeap.init_caller l mx bf).2.heap_array = Multiset.ofList l ∧
    DHeap.Inv (DHeap.init_caller l mx bf).2 := by
  obtain ⟨hI, hM, hB, hX⟩ := DHeap.init_spec l mx bf hbf
  exact ⟨rfl, rfl, hM, hI⟩

/-- C9 witness: the constructor-from-sequence facts at the spec's example
input `[1, 1, 5, 10, -23, 105]`. -/
theorem C9_init_nonmutating_witness :
    (DHeap.init_caller [1, 1, 5, 10, -23, 105] true 2).1 = [1, 1, 5, 10, -23, 105] ∧
    (DHeap.init_caller [1, 1, 5, 10, -23, 105] true 2).2 =
      ([1, 1, 5, 10, -23, 105] : List Int).foldl (fun h v => h.push v)
        { branching_factor := 2, max_heap := true, heap_array := [], last_index := -1 } ∧
    Multiset.ofList (DHeap.init_caller [1, 1, 5, 10, -23, 105] true 2).2.heap_array =
      Multiset.ofList [1, 1, 5, 10, -23, 105] ∧
    DHeap.Inv (DHeap.init_caller [1, 1, 5, 10, -23, 105] true 2).2 :=
  C9_init_nonmutating [1, 1, 5, 10, -23, 105] true 2 (by omega)

/-- C10: for every heap reachable through the constructor or `heapify`
followed by pushes and pops (peek does not touch the state), the physical
length of `heap_array` equals `last_index + 1`: the storage length always
equals the logical size, and in particular `pop` physically removes the
vacated trailing slot (`heap_array.pop(last_index)`) instead of keeping it as
spare capacity. -/
theorem C10_physical_length (h : DHeap) (hr : DHeap.Reachable h) :
    (h.heap_array.length : Int) = h.last_index + 1 :=
  (DHeap.Inv_of_Reachable h hr).2.1

/-- C10 witness: the storage-length identity at the concrete reachable heap
`exHeap`. -/
theorem C10_physical_length_witness :
    (exHeap.heap_array.length : Int) = exHeap.last_index + 1 :=
  C10_physical_length exHeap exHeap_reachable


/-- State of a `BinaryHeap` object (`binaryheap.py`): as `DHeap` but with the
branching factor fixed at 2 instead of stored as an attribute. -/
structure BinaryHeap where
  max_heap : Bool
  heap_array : List Int
  last_index : Int
deriving DecidableEq

namespace BinaryHeap

/-- `BinaryHeap.__compare` (binaryheap.py 114-124): identical to the DHeap
version. -/
def compare (b : BinaryHeap) (index_1 index_2 : Nat) : Bool :=
  if b.max_heap then decide (idx b.heap_array index_1 > idx b.heap_array index_2)
  else decide (idx b.heap_array index_1 < idx b.heap_array index_2)

/-- `BinaryHeap.__swap` (binaryheap.py 106-112): the same parallel-assignment
swap as `DHeap.__swap`, so the same list-level operation. -/
def swap (b : BinaryHeap) (index_1 index_2 : Nat) : BinaryHeap :=
  { b with heap_array := DHeap.swapA b.heap_array index_1 index_2 }

/-- `BinaryHeap.__sift_up` (binaryheap.py 126-135): like `DHeap.__sift_up` with
the parent at `(index - 1) // 2`. -/
def sift_up (b : BinaryHeap) (index : Nat) : BinaryHeap :=
  if hp : 0 ≤ DHeap.pyParent 2 index ∧
      b.compare index (DHeap.pyParent 2 index).toNat = true then
    (b.swap index (DHeap.pyParent 2 index).toNat).sift_up (DHeap.pyParent 2 index).toNat
  else b
termination_by index
decreasing_by
  rcases Nat.eq_zero_or_pos index with hi | hi
  · exact absurd hp.1 (by rw [hi]; exact not_le.mpr (DHeap.pyParent_neg (by omega)))
  · exact DHeap.pyParent_toNat_lt (by omega) hi

/-- The `new_parent` after the left-child test of `BinaryHeap.__sift_down`
(binaryheap.py 143-149): `left = index*2 + 1` replaces the parent when in
range and strictly better. -/
def sift_down_np1 (b : BinaryHeap) (index : Nat) : Nat :=
  if ((index * 2 + 1 : Nat) : Int) ≤ b.last_index ∧ b.compare (index * 2 + 1) index = true
  then index * 2 + 1 else index

/-- The `new_parent` after both child tests of `BinaryHeap.__sift_down`
(binaryheap.py 143-153): `right = index*2 + 2` replaces the survivor of the
left test when in range and strictly better. -/
def sift_down_pick (b : BinaryHeap) (index : Nat) : Nat :=
  if ((index * 2 + 2 : Nat) : Int) ≤ b.last_index ∧
      b.compare (index * 2 + 2) (b.sift_down_np1 index) = true
  then index * 2 + 2 else b.sift_down_np1 index

theorem sift_down_pick_cases_b (b : BinaryHeap) (index : Nat) :
    b.sift_down_pick index = index ∨
      (index < b.sift_down_pick index ∧
        ((b.sift_down_pick index : Nat) : Int) ≤ b.last_index) := by
  have hnp1 : b.sift_down_np1 index = index ∨
      (index < b.sift_down_np1 index ∧
        ((b.sift_down_np1 index : Nat) : Int) ≤ b.last_index) := by
    unfold sift_down_np1
    split
    · rename_i hl
      exact Or.inr ⟨by omega, hl.1⟩
    · exact Or.inl rfl
  unfold sift_down_pick
  split
  · rename_i hr
    exact Or.inr ⟨by omega, hr.1⟩
  · exact hnp1

/-- `BinaryHeap.__sift_down` (binaryheap.py 137-158): if the best of the node
and its in-range children is a child, swap with it and continue from there. -/
def sift_down (b : BinaryHeap) (index : Nat) : BinaryHeap :=
  if b.sift_down_pick index ≠ index then
    (b.swap index (b.sift_down_pick index)).sift_down (b.sift_down_pick index)
  else b
termination_by (b.last_index + 1 - index).toNat
decreasing_by
  rcases sift_down_pick_cases_b b index with hc | hc
  · exact absurd hc (by assumption)
  · show ((b.swap index (b.sift_down_pick index)).last_index + 1 -
        b.sift_down_pick index).toNat < (b.last_index + 1 - index).toNat
    have hsw : (b.swap index (b.sift_down_pick index)).last_index = b.last_index := rfl
    rw [hsw]
    omega

/-- `BinaryHeap.peek` (binaryheap.py 65-71). -/
def peek (b : BinaryHeap) : Except HeapError Int :=
  if b.heap_array.length = 0 then Except.error HeapError.emptyContainer
  else Except.ok (idx b.heap_array 0)

/-- The state in the middle of `BinaryHeap.pop` (binaryheap.py 84-86). -/
def pop_removed (b : BinaryHeap) : BinaryHeap :=
  let h1 := b.swap 0 b.last_index.toNat
  { h1 with
    heap_array := h1.heap_array.eraseIdx h1.last_index.toNat,
    last_index := h1.last_index - 1 }

/-- `BinaryHeap.pop` (binaryheap.py 73-91). -/
def pop (b : BinaryHeap) : Except HeapError Int × BinaryHeap :=
  match b.peek with
  | Except.error e => (Except.error e, b)
  | Except.ok ret_val => (Except.ok ret_val, b.pop_removed.sift_down 0)

/-- The state in the middle of `BinaryHeap.push` (binaryheap.py 99-101). -/
def push_pre (b : BinaryHeap) (val : Int) : BinaryHeap :=
  { b with
    last_index := b.last_index + 1,
    heap_array := b.heap_array ++ [val] }

/-- `BinaryHeap.push` (binaryheap.py 93-104). -/
def push (b : BinaryHeap) (val : Int) : BinaryHeap :=
  (b.push_pre val).sift_up (b.push_pre val).last_index.toNat

/-- `BinaryHeap.__init__` (binaryheap.py 50-63). -/
def init (initial_contents : List Int) (max_heap : Bool) : BinaryHeap :=
  initial_contents.foldl (fun b val => b.push val)
    { max_heap := max_heap, heap_array := [], last_index := -1 }

/-- The heap object at the start of `BinaryHeap.heapify` (binaryheap.py
17-19). -/
def heapify_start (unordered_list : List Int) (max_heap : Bool) : BinaryHeap :=
  { init [] max_heap with
    heap_array := unordered_list,
    last_index := (unordered_list.length : Int) - 1 }

/-- The `while start >= 0` loop of `BinaryHeap.heapify` (binaryheap.py
25-27). -/
def heapify_loop (b : BinaryHeap) (start : Int) : BinaryHeap :=
  if 0 ≤ start then heapify_loop (b.sift_down start.toNat) (start - 1) else b
termination_by (start + 1).toNat
decreasing_by omega

/-- `BinaryHeap.heapify` (binaryheap.py 8-29): the sift-down loop starts at
`(last_index - 1) // 2`. -/
def heapify (unordered_list : List Int) (max_heap : Bool) : BinaryHeap :=
  heapify_loop (heapify_start unordered_list max_heap)
    (((heapify_start unordered_list max_heap).last_index - 1).fdiv 2)

/-- One iteration of the heapsort loop of `BinaryHeap.heapsort` (binaryheap.py
43-45) before its sift-down. -/
def heapsort_step (b : BinaryHeap) : BinaryHeap :=
  let h1 := b.swap 0 b.last_index.toNat
  { h1 with last_index := h1.last_index - 1 }

theorem sift_down_last_index_b (b : BinaryHeap) (index : Nat) :
    (b.sift_down index).last_index = b.last_index := by
  induction b, index using sift_down.induct with
  | case1 b index hne ih =>
    rw [sift_down]
    simp only [if_pos hne]
    rw [ih]
    rfl
  | case2 b index hne =>
    rw [sift_down]
    simp only [if_neg hne]

/-- The `while heap.last_index >= 0` loop of `BinaryHeap.heapsort`
(binaryheap.py 42-48). -/
def heapsort_loop (b : BinaryHeap) : BinaryHeap :=
  if 0 ≤ b.last_index then heapsort_loop ((heapsort_step b).sift_down 0)
  else b
termination_by (b.last_index + 1).toNat
decreasing_by
  rw [sift_down_last_index_b]
  show ((b.last_index - 1) + 1).toNat < (b.last_index + 1).toNat
  omega

/-- `BinaryHeap.heapsort` (binaryheap.py 31-48). -/
def heapsort (unordered_list : List Int) (ascending : Bool) : List Int :=
  (heapsort_loop (heapify unordered_list ascending)).heap_array

/-- `BinaryHeap.validate_heap` (binaryheap.py 160-183): the same
first-in-range-child scheme as `DHeap.validate_heap`, with `while i < 2` and
`first_child = parent*2 + 1`. -/
def validate_heap (b : BinaryHeap) (parent : Nat) : Bool :=
  match hk : (List.range 2).find?
      (fun i => decide (((parent * 2 + 1 + i : Nat) : Int) ≤ b.last_index)) with
  | some i =>
    if b.compare (parent * 2 + 1 + i) parent then false
    else b.validate_heap (parent * 2 + 1 + i)
  | none => true
termination_by (b.last_index + 1 - parent).toNat
decreasing_by
  have hin : ((parent * 2 + 1 + i : Nat) : Int) ≤ b.last_index := by
    have := List.find?_some hk
    simpa using this
  omega

/-- `BinaryHeap.__len__` (binaryheap.py 191-192). -/
def len (b : BinaryHeap) : Int := b.last_index + 1

end BinaryHeap


/-- The refinement map for C8: a `BinaryHeap` state viewed as a `DHeap` state
with `branching_factor = 2`.  It keeps the ordering flag, the storage and the
logical size unchanged. -/
def toD (b : BinaryHeap) : DHeap :=
  { branching_factor := 2, max_heap := b.max_heap,
    heap_array := b.heap_array, last_index := b.last_index }

theorem toD_pick (b : BinaryHeap) (index : Nat) :
    (toD b).sift_down_pick index = b.sift_down_pick index := rfl

theorem toD_sift_up (b : BinaryHeap) (index : Nat) :
    toD (b.sift_up index) = (toD b).sift_up index := by
  induction b, index using BinaryHeap.sift_up.induct with
  | case1 b index hp ih =>
    have hb : b.sift_up index =
        (b.swap index (DHeap.pyParent 2 index).toNat).sift_up
          (DHeap.pyParent 2 index).toNat := by
      rw [BinaryHeap.sift_up]
      simp only [dif_pos hp]
    have hp2 : 0 ≤ DHeap.pyParent (toD b).branching_factor index ∧
        (toD b).compare index (DHeap.pyParent (toD b).branching_factor index).toNat = true := hp
    have hd : (toD b).sift_up index =
        ((toD b).swap index (DHeap.pyParent (toD b).branching_factor index).toNat).sift_up
          (DHeap.pyParent (toD b).branching_factor index).toNat := by
      rw [DHeap.sift_up]
      simp only [dif_pos hp2]
    rw [hb, ih, hd]
    rfl
  | case2 b index hp =>
    have hp2 : ¬ (0 ≤ DHeap.pyParent (toD b).branching_factor index ∧
        (toD b).compare index (DHeap.pyParent (toD b).branching_factor index).toNat = true) := hp
    rw [BinaryHeap.sift_up, DHeap.sift_up]
    simp only [dif_neg hp, dif_neg hp2]

theorem toD_sift_down (b : BinaryHeap) (index : Nat) :
    toD (b.sift_down index) = (toD b).sift_down index := by
  induction b, index using BinaryHeap.sift_down.induct with
  | case1 b index hne ih =>
    have hb : b.sift_down index =
        (b.swap index (b.sift_down_pick index)).sift_down (b.sift_down_pick index) := by
      rw [BinaryHeap.sift_down]
      simp only [if_pos hne]
    have hne2 : (toD b).sift_down_pick index ≠ index := by
      rw [toD_pick]
      exact hne
    have hd : (toD b).sift_down index =
        ((toD b).swap index ((toD b).sift_down_pick index)).sift_down
          ((toD b).sift_down_pick index) := by
      rw [DHeap.sift_down]
      simp only [if_pos hne2]
    rw [hb, ih, hd, toD_pick]
    rfl
  | case2 b index hne =>
    have hne2 : ¬ (toD b).sift_down_pick index ≠ index := by
      rw [toD_pick]
      exact hne
    rw [BinaryHeap.sift_down, DHeap.sift_down]
    simp only [if_neg hne, if_neg hne2]

theorem validate_unfold_b (b : BinaryHeap) (parent : Nat) :
    b.validate_heap parent =
      (if ((parent * 2 + 1 : Nat) : Int) ≤ b.last_index then
        (if b.compare (parent * 2 + 1) parent then false
         else b.validate_heap (parent * 2 + 1))
      else true) := by
  rw [BinaryHeap.validate_heap]
  rw [range_find_helper 2 (parent * 2 + 1) b.last_index]
  by_cases hc : ((parent * 2 + 1 : Nat) : Int) ≤ b.last_index
  · rw [if_pos ⟨by omega, hc⟩, if_pos hc]
  · rw [if_neg (fun h => hc h.2), if_neg hc]

theorem toD_validate_aux : ∀ (n : Nat) (b : BinaryHeap) (parent : Nat),
    (b.last_index + 1 - (parent : Int)).toNat ≤ n →
    (toD b).validate_heap parent = b.validate_heap parent := by
  intro n
  induction n with
  | zero =>
    intro b parent hn
    have hout : ¬ ((parent * 2 + 1 : Nat) : Int) ≤ b.last_index := by
      push_cast
      omega
    have hD : (toD b).validate_heap parent =
        (if 1 ≤ 2 ∧ ((parent * 2 + 1 : Nat) : Int) ≤ b.last_index then
          (if (toD b).compare (parent * 2 + 1) parent then false
           else (toD b).validate_heap (parent * 2 + 1))
        else true) := validate_unfold (toD b) parent
    rw [hD, validate_unfold_b, if_neg (fun h => hout h.2), if_neg hout]
  | succ n ih =>
    intro b parent hn
    have hD : (toD b).validate_heap parent =
        (if 1 ≤ 2 ∧ ((parent * 2 + 1 : Nat) : Int) ≤ b.last_index then
          (if (toD b).compare (parent * 2 + 1) parent then false
           else (toD b).validate_heap (parent * 2 + 1))
        else true) := validate_unfold (toD b) parent
    rw [hD, validate_unfold_b]
    by_cases hc : ((parent * 2 + 1 : Nat) : Int) ≤ b.last_index
    · rw [if_pos ⟨by omega, hc⟩, if_pos hc]
      have hcmp : (toD b).compare (parent * 2 + 1) parent =
          b.compare (parent * 2 + 1) parent := rfl
      rw [hcmp]
      by_cases hcp : b.compare (parent * 2 + 1) parent = true
      · rw [if_pos hcp, if_pos hcp]
      · rw [if_neg hcp, if_neg hcp]
        apply ih b (parent * 2 + 1)
        push_cast at hc ⊢
        omega
    · rw [if_neg (fun h => hc h.2), if_neg hc]

theorem toD_validate (b : BinaryHeap) (parent : Nat) :
    (toD b).validate_heap parent = b.validate_heap parent :=
  toD_validate_aux (b.last_index + 1 - (parent : Int)).toNat b parent (le_refl _)


theorem toD_push (b : BinaryHeap) (v : Int) : toD (b.push v) = (toD b).push v := by
  show toD ((b.push_pre v).sift_up (b.push_pre v).last_index.toNat) =
    ((toD b).push_pre v).sift_up ((toD b).push_pre v).last_index.toNat
  rw [toD_sift_up]
  rfl

theorem toD_pop (b : BinaryHeap) : (toD b).pop = ((b.pop).1, toD (b.pop).2) := by
  have hpk : (toD b).peek = b.peek := rfl
  rcases hb : b.peek with e | v
  · have h1 : b.pop = (Except.error e, b) := by
      rw [BinaryHeap.pop, hb]
    have h2 : (toD b).pop = (Except.error e, toD b) := by
      rw [DHeap.pop, hpk, hb]
    rw [h1, h2]
  · have h1 : b.pop = (Except.ok v, b.pop_removed.sift_down 0) := by
      rw [BinaryHeap.pop, hb]
    have h2 : (toD b).pop = (Except.ok v, (toD b).pop_removed.sift_down 0) := by
      rw [DHeap.pop, hpk, hb]
    rw [h1, h2, toD_sift_down]
    rfl

theorem toD_init_aux (l : List Int) : ∀ b0 : BinaryHeap,
    toD (l.foldl (fun b val => b.push val) b0) =
      l.foldl (fun h val => h.push val) (toD b0) := by
  induction l with
  | nil => intro b0; rfl
  | cons v l ih =>
    intro b0
    simp only [List.foldl_cons]
    rw [ih, toD_push]

theorem toD_init (l : List Int) (mx : Bool) :
    toD (BinaryHeap.init l mx) = DHeap.init l mx 2 := by
  unfold BinaryHeap.init DHeap.init
  rw [toD_init_aux]
  rfl

theorem toD_heapify_loop (b : BinaryHeap) (start : Int) :
    toD (BinaryHeap.heapify_loop b start) = DHeap.heapify_loop (toD b) start := by
  induction b, start using BinaryHeap.heapify_loop.induct with
  | case1 b start hs ih =>
    have hs2 : (0 : Int) ≤ start := hs
    rw [BinaryHeap.heapify_loop, DHeap.heapify_loop]
    simp only [if_pos hs, if_pos hs2]
    rw [ih, toD_sift_down]
  | case2 b start hs =>
    have hs2 : ¬ (0 : Int) ≤ start := hs
    rw [BinaryHeap.heapify_loop, DHeap.heapify_loop]
    simp only [if_neg hs, if_neg hs2]

theorem toD_heapify (l : List Int) (mx : Bool) :
    toD (BinaryHeap.heapify l mx) = DHeap.heapify l mx 2 := by
  have hs : toD (BinaryHeap.heapify_start l mx) = DHeap.heapify_start l mx 2 := rfl
  show toD (BinaryHeap.heapify_loop (BinaryHeap.heapify_start l mx)
      (((BinaryHeap.heapify_start l mx).last_index - 1).fdiv 2)) = _
  rw [toD_heapify_loop, hs]
  rfl

theorem toD_heapsort_loop (b : BinaryHeap) :
    toD (BinaryHeap.heapsort_loop b) = DHeap.heapsort_loop (toD b) := by
  induction b using BinaryHeap.heapsort_loop.induct with
  | case1 b hs ih =>
    have hs2 : (0 : Int) ≤ (toD b).last_index := hs
    rw [BinaryHeap.heapsort_loop, DHeap.heapsort_loop]
    simp only [if_pos hs, if_pos hs2]
    rw [ih, toD_sift_down]
    rfl
  | case2 b hs =>
    have hs2 : ¬ (0 : Int) ≤ (toD b).last_index := hs
    rw [BinaryHeap.heapsort_loop, DHeap.heapsort_loop]
    simp only [if_neg hs, if_neg hs2]

theorem toD_heapsort (l : List Int) (asc : Bool) :
    BinaryHeap.heapsort l asc = DHeap.heapsort l asc := by
  have h2 := congrArg DHeap.heap_array (toD_heapsort_loop (BinaryHeap.heapify l asc))
  have h3 := congrArg (fun h => (DHeap.heapsort_loop h).heap_array) (toD_heapify l asc)
  calc BinaryHeap.heapsort l asc
      = (toD (BinaryHeap.heapsort_loop (BinaryHeap.heapify l asc))).heap_array := rfl
    _ = (DHeap.heapsort_loop (toD (BinaryHeap.heapify l asc))).heap_array := h2
    _ = (DHeap.heapsort_loop (DHeap.heapify l asc 2)).heap_array := h3
    _ = DHeap.heapsort l asc := rfl

/-- One call of the shared public interface of the two classes, with its
argument where there is one: the operations of C8 that act on a constructed
heap object. -/
inductive HeapOp where
  | push : Int → HeapOp
  | pop : HeapOp
  | peek : HeapOp
  | len : HeapOp
  | validate : HeapOp

/-- The visible outcome of one interface call: nothing (`push`), a value
(`pop`/`peek`/`len`), a boolean (`validate_heap`), or a raised error. -/
inductive OpResult where
  | unit : OpResult
  | int : Int → OpResult
  | bool : Bool → OpResult
  | err : HeapError → OpResult

/-- Run one interface call on a `DHeap` state, producing the visible outcome
and the successor state (`validate_heap` is called at its default argument 0,
as a caller would). -/
def DHeap.runOp (h : DHeap) : HeapOp → OpResult × DHeap
  | HeapOp.push v => (OpResult.unit, h.push v)
  | HeapOp.pop =>
    match h.pop with
    | (Except.ok v, h2) => (OpResult.int v, h2)
    | (Except.error e, h2) => (OpResult.err e, h2)
  | HeapOp.peek =>
    match h.peek with
    | Except.ok v => (OpResult.int v, h)
    | Except.error e => (OpResult.err e, h)
  | HeapOp.len => (OpResult.int h.len, h)
  | HeapOp.validate => (OpResult.bool (h.validate_heap 0), h)

/-- Run a sequence of interface calls on a `DHeap` state, collecting every
visible outcome and the final state. -/
def DHeap.run (h : DHeap) : List HeapOp → List OpResult × DHeap
  | [] => ([], h)
  | op :: ops =>
    ((h.runOp op).1 :: ((h.runOp op).2.run ops).1, ((h.runOp op).2.run ops).2)

/-- Run one interface call on a `BinaryHeap` state. -/
def BinaryHeap.runOp (b : BinaryHeap) : HeapOp → OpResult × BinaryHeap
  | HeapOp.push v => (OpResult.unit, b.push v)
  | HeapOp.pop =>
    match b.pop with
    | (Except.ok v, b2) => (OpResult.int v, b2)
    | (Except.error e, b2) => (OpResult.err e, b2)
  | HeapOp.peek =>
    match b.peek with
    | Except.ok v => (OpResult.int v, b)
    | Except.error e => (OpResult.err e, b)
  | HeapOp.len => (OpResult.int b.len, b)
  | HeapOp.validate => (OpResult.bool (b.validate_heap 0), b)

/-- Run a sequence of interface calls on a `BinaryHeap` state. -/
def BinaryHeap.run (b : BinaryHeap) : List HeapOp → List OpResult × BinaryHeap
  | [] => ([], b)
  | op :: ops =>
    ((b.runOp op).1 :: ((b.runOp op).2.run ops).1, ((b.runOp op).2.run ops).2)

theorem runOp_commute (b : BinaryHeap) (op : HeapOp) :
    ((toD b).runOp op).1 = (b.runOp op).1 ∧
    ((toD b).runOp op).2 = toD (b.runOp op).2 := by
  cases op with
  | push v => exact ⟨rfl, (toD_push b v).symm⟩
  | pop =>
    have hD := toD_pop b
    rcases hb : b.pop with ⟨r, h2⟩
    rw [hb] at hD
    have hD2 : (toD b).pop = (r, toD h2) := hD
    rcases r with e | v
    · have hbr : b.runOp HeapOp.pop = (OpResult.err e, h2) := by
        simp only [BinaryHeap.runOp, hb]
      have hdr : (toD b).runOp HeapOp.pop = (OpResult.err e, toD h2) := by
        simp only [DHeap.runOp, hD2]
      rw [hbr, hdr]
      exact ⟨rfl, rfl⟩
    · have hbr : b.runOp HeapOp.pop = (OpResult.int v, h2) := by
        simp only [BinaryHeap.runOp, hb]
      have hdr : (toD b).runOp HeapOp.pop = (OpResult.int v, toD h2) := by
        simp only [DHeap.runOp, hD2]
      rw [hbr, hdr]
      exact ⟨rfl, rfl⟩
  | peek =>
    have hpk : (toD b).peek = b.peek := rfl
    rcases hb : b.peek with e | v
    · have hbr : b.runOp HeapOp.peek = (OpResult.err e, b) := by
        simp only [BinaryHeap.runOp, hb]
      have hdr : (toD b).runOp HeapOp.peek = (OpResult.err e, toD b) := by
        simp only [DHeap.runOp, hpk, hb]
      rw [hbr, hdr]
      exact ⟨rfl, rfl⟩
    · have hbr : b.runOp HeapOp.peek = (OpResult.int v, b) := by
        simp only [BinaryHeap.runOp, hb]
      have hdr : (toD b).runOp HeapOp.peek = (OpResult.int v, toD b) := by
        simp only [DHeap.runOp, hpk, hb]
      rw [hbr, hdr]
      exact ⟨rfl, rfl⟩
  | len => exact ⟨rfl, rfl⟩
  | validate =>
    refine ⟨?_, rfl⟩
    show OpResult.bool ((toD b).validate_heap 0) = OpResult.bool (b.validate_heap 0)
    rw [toD_validate]

theorem run_commute (ops : List HeapOp) : ∀ b : BinaryHeap,
    ((toD b).run ops).1 = (b.run ops).1 ∧ ((toD b).run ops).2 = toD (b.run ops).2 := by
  induction ops with
  | nil => intro b; exact ⟨rfl, rfl⟩
  | cons op ops ih =>
    intro b
    obtain ⟨h1, h2⟩ := runOp_commute b op
    obtain ⟨h3, h4⟩ := ih (b.runOp op).2
    constructor
    · show ((toD b).runOp op).1 :: (((toD b).runOp op).2.run ops).1 =
        (b.runOp op).1 :: ((b.runOp op).2.run ops).1
      rw [h1, h2, h3]
    · show (((toD b).runOp op).2.run ops).2 = toD ((b.runOp op).2.run ops).2
      rw [h2, h4]


/-- C8: `BinaryHeap` and `DHeap` with `branching_factor = 2` are behaviorally
identical.  The refinement map `toD` (which keeps the ordering flag, the
storage and the logical size, and sets the branching factor to 2) identifies
the states the two constructors produce and the states `heapify` produces, the
two `heapsort`s return the same sorted list, and for every sequence of `push`,
`pop`, `peek`, `len` and `validate_heap` calls on either starting state the
two classes return the same list of visible outcomes (values, booleans and
errors alike) and end in `toD`-related final states — in particular with the
same final storage contents and logical size. -/
theorem C8_binary_equiv (l : List Int) (mx asc : Bool) (ops : List HeapOp) :
    toD (BinaryHeap.init l mx) = DHeap.init l mx 2 ∧
    toD (BinaryHeap.heapify l mx) = DHeap.heapify l mx 2 ∧
    BinaryHeap.heapsort l asc = DHeap.heapsort l asc ∧
    ((DHeap.init l mx 2).run ops).1 = ((BinaryHeap.init l mx).run ops).1 ∧
    ((DHeap.init l mx 2).run ops).2 = toD ((BinaryHeap.init l mx).run ops).2 ∧
    ((DHeap.heapify l mx 2).run ops).1 = ((BinaryHeap.heapify l mx).run ops).1 ∧
    ((DHeap.heapify l mx 2).run ops).2 = toD ((BinaryHeap.heapify l mx).run ops).2 := by
  obtain ⟨hi1, hi2⟩ := run_commute ops (BinaryHeap.init l mx)
  obtain ⟨hh1, hh2⟩ := run_commute ops (BinaryHeap.heapify l mx)
  refine ⟨toD_init l mx, toD_heapify l mx, toD_heapsort l asc, ?_, ?_, ?_, ?_⟩
  · rw [← toD_init l mx]
    exact hi1
  · rw [← toD_init l mx]
    exact hi2
  · rw [← toD_heapify l mx]
    exact hh1
  · rw [← toD_heapify l mx]
    exact hh2
